import Mathlib

/-!
Verification of the rule-based region fitting engine of the `placement`
package (file `fit.go`): the data model (`RegionFit`, `RuleFit`), the
isolation scorer, the rule-fit comparator, the incremental replacement
checker and the combinatorial fit search (`fitWorker`).

Embedding notes.
* `float64` isolation scores are sums of terms `100^(L-index-1)` with
  natural-number exponents, so they are modelled exactly by `Nat`.
* Go's mutable `fitPeer.selected` flag is modelled by the list `sel` of
  selected positions into the fixed worker peer list; the flag is only
  ever set and then restored around each subset trial
  (`pickPeersFromBinaryInt` / `unSelectPeers`), so the search threads
  `sel` downwards only.
* External collaborators that are not part of the sources under
  verification (`core.StoreInfo`, `core.RegionInfo`, `checkRule`,
  `MatchLabelConstraints`, `getStoreByID`) are modelled from the spec;
  each such definition is marked `Modelled from the spec:`.
-/

namespace Placement

/-- Role required by a placement rule: `Voter`, `Leader`, `Follower`, `Learner`
(`PeerRoleType` in the source). -/
inductive PeerRoleType where
  | Voter
  | Leader
  | Follower
  | Learner
deriving DecidableEq, Repr

/-- Modelled from the spec: a replica (`metapb.Peer`) has an identifier, a
store reference, a voter/learner role marker and a witness flag. -/
structure Peer where
  id : Nat
  storeId : Nat
  isLearner : Bool
  isWitness : Bool
deriving DecidableEq, Repr

/-- Modelled from the spec: a store (`core.StoreInfo`) has a numeric
identifier and a mapping of label keys to values. -/
structure Store where
  id : Nat
  labels : List (String × String)
deriving DecidableEq, Repr

/-- Modelled from the spec: a region (`core.RegionInfo`) has replicas, a
designated leader (`GetLeader().GetId()`, `0` when absent, as the protobuf
getter returns the zero value on a missing message) and down/pending peer
sets identified by peer id. -/
structure Region where
  peers : List Peer
  leaderId : Nat
  downPeerIds : List Nat
  pendingPeerIds : List Nat
deriving Repr

/-- Modelled from the spec: the engine only needs a boolean
"does store match constraint set" oracle for a rule's `LabelConstraints`;
the constraint expression syntax is out of scope, so a constraint set is
modelled as its matching predicate on stores. -/
def LabelConstraints : Type := Store → Bool

/-- A placement rule: target replica `count`, required `role`, witness flag,
`labelConstraints` oracle and ordered `locationLabels` (most significant
first). -/
structure Rule where
  count : Nat
  role : PeerRoleType
  isWitness : Bool
  labelConstraints : LabelConstraints
  locationLabels : List String

/-- `RuleFit` is the result of fitting status of a Rule: the rule, the peers
of the region divided to this rule, the subset of those peers whose role
differs from the configuration, and the isolation score. -/
structure RuleFit where
  rule : Rule
  peers : List Peer
  peersWithDifferentRole : List Peer
  isolationScore : Nat

/-- `RegionFit` is the result of fitting a region's peers to a rule list:
one (possibly absent) `RuleFit` per rule, positionally, the orphan peers,
and the store snapshot used for the computation.  The guarded `cached`
flag carries no other state and is not modelled. -/
structure RegionFit where
  ruleFits : List (Option RuleFit)
  orphanPeers : List Peer
  regionStores : List Store

/-- Modelled from the spec: `core.IsLearner` checks the peer's role marker. -/
def IsLearner (p : Peer) : Bool := p.isLearner

/-- Modelled from the spec: the value a store carries for a label key,
`""` when the key is not set (`core.StoreInfo.GetLabelValue`). -/
def getLabelValue (s : Store) (key : String) : String :=
  match s.labels.find? (fun kv => kv.1 = key) with
  | some kv => kv.2
  | none => ""

/-- Modelled from the spec: `core.StoreInfo.CompareLocation` returns the
most significant hierarchy level (0-indexed) at which the two stores'
location values diverge, or a no-divergence sentinel (`-1` in the source,
`none` here) when all labels match or required labels are missing. -/
def compareLocationFrom (s1 s2 : Store) : List String → Nat → Option Nat
  | [], _ => none
  | key :: keys, i =>
      let v1 := getLabelValue s1 key
      let v2 := getLabelValue s2 key
      if v1 ≠ "" ∧ v2 ≠ "" ∧ v1 ≠ v2 then some i
      else compareLocationFrom s1 s2 keys (i + 1)

/-- Modelled from the spec: divergence level of two optional stores; a peer
whose store is absent from the snapshot has no label values, so it never
diverges (missing labels contribute zero, per the error-handling policy). -/
def compareLocation (s1 s2 : Option Store) (labels : List String) : Option Nat :=
  match s1, s2 with
  | some t1, some t2 => compareLocationFrom t1 t2 labels 0
  | _, _ => none

/-- Modelled from the spec: the label-constraint oracle
(`MatchLabelConstraints`); a store absent from the snapshot matches no
constraint set. -/
def MatchLabelConstraints (s : Option Store) (c : LabelConstraints) : Bool :=
  match s with
  | some st => c st
  | none => false

/-- Modelled from the spec: `checkRule` precomputes whether the rule's label
constraint set has at least one eligible store cluster-wide. -/
def checkRule (r : Rule) (stores : List Store) : Bool :=
  stores.any (fun s => MatchLabelConstraints (some s) r.labelConstraints)

/-- Modelled from the spec: the store-set lookup `GetStore(id) -> store|absent`
(`getStoreByID`). -/
def getStoreByID (stores : List Store) (id : Nat) : Option Store :=
  stores.find? (fun s => s.id = id)

/-- `fitPeer` couples a peer with its resolved store and leader flag.  The
mutable `selected` flag of the source is modelled by the separate `sel`
index list threaded through the search. -/
structure FitPeer where
  peer : Peer
  store : Option Store
  isLeader : Bool
deriving DecidableEq, Repr

instance : Inhabited FitPeer :=
  ⟨{ peer := { id := 0, storeId := 0, isLearner := false, isWitness := false },
     store := none, isLeader := false }⟩

/-- `stateScore`: down peers score 0, pending peers 1, healthy peers 2. -/
def stateScore (region : Region) (peerId : Nat) : Nat :=
  if region.downPeerIds.contains peerId then 0
  else if region.pendingPeerIds.contains peerId then 1
  else 2

/-- The sort keys of `newFitPeer`: health-state score descending, peer id
ascending; this is the non-strict order induced by the source's
`sort.Slice` less function. -/
def fitPeerLe (region : Region) (a b : FitPeer) : Bool :=
  let sa := stateScore region a.peer.id
  let sb := stateScore region b.peer.id
  decide (sb < sa) || (decide (sa = sb) && decide (a.peer.id ≤ b.peer.id))

/-- Ordered insertion used to model the sort in `newFitPeer`. -/
def insertPeer (region : Region) (a : FitPeer) : List FitPeer → List FitPeer
  | [] => [a]
  | b :: l => if fitPeerLe region a b then a :: b :: l else b :: insertPeer region a l

/-- The deterministic peer sort of `newFitPeer` (`sort.Slice`): any sorting
algorithm is a faithful model because the sorted order is unique when peer
ids are distinct (see the determinism theorem). -/
def sortPeers (region : Region) : List FitPeer → List FitPeer
  | [] => []
  | a :: l => insertPeer region a (sortPeers region l)

/-- An option of `newFitPeer` (`fitPeerOpt`). -/
def FitPeerOpt : Type := FitPeer → FitPeer

/-- `replaceFitPeerOpt` substitutes the destination store for the peer
hosted on the source store. -/
def replaceFitPeerOpt (srcStoreID : Nat) (dstStore : Store) : FitPeerOpt :=
  fun p => if p.peer.storeId = srcStoreID then { p with store := some dstStore } else p

/-- `newFitPeer`: annotate each target peer with its resolved store and
leader flag, apply the options, then sort to keep the match result
deterministic (healthy peers first, then ascending peer id). -/
def newFitPeer (stores : List Store) (region : Region) (fitPeers : List Peer)
    (opts : List FitPeerOpt) : List FitPeer :=
  sortPeers region
    (fitPeers.map (fun p =>
      opts.foldl (fun q opt => opt q)
        { peer := p, store := getStoreByID stores p.storeId,
          isLeader := region.leaderId = p.id }))

/-- `fitPeer.matchRoleStrict`: Voter matches any non-learner, Leader only the
current leader, Follower any non-learner non-leader, Learner only learners. -/
def matchRoleStrict (p : FitPeer) (role : PeerRoleType) : Bool :=
  match role with
  | .Voter => !IsLearner p.peer
  | .Leader => p.isLeader
  | .Follower => !IsLearner p.peer && !p.isLeader
  | .Learner => IsLearner p.peer

/-- The contribution of one unordered pair of peers to `isolationScore`:
`100^(L-index-1)` at divergence level `index`, `0` without divergence. -/
def pairScore (labels : List String) (p1 p2 : FitPeer) : Nat :=
  match compareLocation p1.store p2.store labels with
  | some index => 100 ^ (labels.length - index - 1)
  | none => 0

/-- The double loop of `isolationScore`: each peer against every later peer. -/
def sumPairs (labels : List String) : List FitPeer → Nat
  | [] => 0
  | p :: ps => (ps.map (pairScore labels p)).sum + sumPairs labels ps

/-- `isolationScore`: zero for an empty label list or at most one peer,
otherwise the pairwise divergence sum (`replicaBaseScore = 100`). -/
def isolationScore (peers : List FitPeer) (labels : List String) : Nat :=
  if labels.length = 0 ∨ peers.length ≤ 1 then 0
  else sumPairs labels peers

/-- The loop body of `newRuleFit`: append the peer, and also append it to
`PeersWithDifferentRole` when it fails the strict role match or is a
witness peer under a non-witness rule. -/
def ruleFitAppend (rule : Rule) (rf : RuleFit) (p : FitPeer) : RuleFit :=
  { rf with
    peers := rf.peers ++ [p.peer]
    peersWithDifferentRole :=
      if !matchRoleStrict p rule.role || (p.peer.isWitness && !rule.isWitness) then
        rf.peersWithDifferentRole ++ [p.peer]
      else rf.peersWithDifferentRole }

/-- `newRuleFit`: record the rule and isolation score, then divide the
assigned peers with `ruleFitAppend`. -/
def newRuleFit (rule : Rule) (peers : List FitPeer) : RuleFit :=
  peers.foldl (ruleFitAppend rule)
    { rule := rule, peers := [], peersWithDifferentRole := [],
      isolationScore := isolationScore peers rule.locationLabels }

/-- `RuleFit.IsSatisfied`: exactly `Count` peers and no peer with a
different role. -/
def RuleFit.IsSatisfied (f : RuleFit) : Bool :=
  decide (f.peers.length = f.rule.count) && decide (f.peersWithDifferentRole.length = 0)

/-- `RuleFit.contain`: whether some assigned peer is hosted on the store. -/
def RuleFit.contain (f : RuleFit) (storeID : Nat) : Bool :=
  f.peers.any (fun p => p.storeId = storeID)

/-- `compareRuleFit`: three-way comparison by assigned peer count (more is
better), then different-role count (fewer is better), then isolation score
(higher is better). -/
def compareRuleFit (a b : RuleFit) : Int :=
  if a.peers.length < b.peers.length then -1
  else if b.peers.length < a.peers.length then 1
  else if b.peersWithDifferentRole.length < a.peersWithDifferentRole.length then -1
  else if a.peersWithDifferentRole.length < b.peersWithDifferentRole.length then 1
  else if a.isolationScore < b.isolationScore then -1
  else if b.isolationScore < a.isolationScore then 1
  else 0

/-- `RegionFit.IsSatisfied`: a non-empty rule list, every rule fit present
and satisfied, and no orphan peers.  An absent (`nil`) entry counts as
unsatisfied, per the spec's error-handling policy. -/
def RegionFit.IsSatisfied (f : RegionFit) : Bool :=
  if f.ruleFits.length = 0 then false
  else
    (f.ruleFits.all (fun orf =>
      match orf with
      | some r => r.IsSatisfied
      | none => false)) && decide (f.orphanPeers.length = 0)

/-- `RegionFit.getRuleFitByStoreID`: the first rule fit holding a peer on
the given store. -/
def getRuleFitByStoreID (f : RegionFit) (storeID : Nat) : Option RuleFit :=
  f.ruleFits.findSome? (fun orf =>
    match orf with
    | some rf => if rf.peers.any (fun p => p.storeId = storeID) then some rf else none
    | none => none)

/-- `RegionFit.Replace`: false when no rule fit owns the source store or the
destination fails the rule's label constraints; true when the destination
already hosts a member of the same rule fit; otherwise true iff the
recomputed isolation score with the destination substituted is at least
the original. -/
def RegionFit.Replace (f : RegionFit) (srcStoreID : Nat) (dstStore : Store)
    (region : Region) : Bool :=
  match getRuleFitByStoreID f srcStoreID with
  | none => false
  | some fit =>
      if !MatchLabelConstraints (some dstStore) fit.rule.labelConstraints then false
      else if fit.contain dstStore.id then true
      else
        let peers := newFitPeer f.regionStores region fit.peers
          [replaceFitPeerOpt srcStoreID dstStore]
        let score := isolationScore peers fit.rule.locationLabels
        decide (fit.isolationScore ≤ score)

/-- `needIsolation`: whether any rule declares location labels. -/
def needIsolation (rules : List Rule) : Bool :=
  rules.any (fun r => !r.locationLabels.isEmpty)

/-- `bits.OnesCount`: population count, computed with a structural fuel
(the fuel `n` always suffices for argument `n`). -/
def onesCountAux : Nat → Nat → Nat
  | _, 0 => 0
  | 0, _ + 1 => 0
  | fuel + 1, m + 1 => (m + 1) % 2 + onesCountAux fuel ((m + 1) / 2)

/-- Number of one bits of a natural number (`bits.OnesCount`). -/
def onesCount (n : Nat) : Nat := onesCountAux n n

/-- The mutable search state of `fitWorker`: the per-rule best fits, the
orphan peer list and the early-exit flag. -/
structure SearchState where
  ruleFits : List (Option RuleFit)
  orphans : List Peer
  exit : Bool

/-- The `RegionFit` view of the worker's `bestFit` (its `regionStores` field
is never set inside `fit.go`). -/
def mkRegionFit (st : SearchState) : RegionFit :=
  { ruleFits := st.ruleFits, orphanPeers := st.orphans, regionStores := [] }

/-- The candidate scan of `fitRule`: peers not selected by earlier rules that
match the rule's label constraints, paired with their position in the
worker peer list; empty when `checkRule` reports no eligible store. -/
def candidateScan (sel : List Nat) (r : Rule) : Nat → List FitPeer → List (Nat × FitPeer)
  | _, [] => []
  | i, p :: ps =>
      if !sel.contains i && MatchLabelConstraints p.store r.labelConstraints then
        (i, p) :: candidateScan sel r (i + 1) ps
      else candidateScan sel r (i + 1) ps

/-- Candidates for one rule (`fitRule` steps 1-3 of the spec's §4.4). -/
def ruleCandidates (stores : List Store) (peers : List FitPeer) (sel : List Nat)
    (r : Rule) : List (Nat × FitPeer) :=
  if checkRule r stores then candidateScan sel r 0 peers else []

/-- `pickPeersFromBinaryInt`: select the candidates whose bit of the binary
number is one, stopping once the remaining bits are all zero. -/
def pickPeersFromBinaryInt : List (Nat × FitPeer) → Nat → List (Nat × FitPeer)
  | [], _ => []
  | c :: cs, m =>
      (if m % 2 = 1 then [c] else []) ++
        (if m / 2 = 0 then [] else pickPeersFromBinaryInt cs (m / 2))

/-- The reset of `compareBest`: discard previously accepted fits for later
rule indices. -/
def resetAfter (k : Nat) (l : List (Option RuleFit)) : List (Option RuleFit) :=
  l.take (k + 1) ++ List.replicate (l.length - (k + 1)) none

/-- `updateOrphanPeers` without its index guard: recompute the orphan list
as every worker peer whose position is not selected, in peer order. -/
def orphansFrom (sel : List Nat) : Nat → List FitPeer → List Peer
  | _, [] => []
  | i, p :: ps =>
      if sel.contains i then orphansFrom sel (i + 1) ps
      else p.peer :: orphansFrom sel (i + 1) ps

/-- `updateOrphanPeers` body (the caller checks `index = len(rules)`). -/
def updateOrphanPeers (peers : List FitPeer) (sel : List Nat) (st : SearchState) :
    SearchState :=
  { st with orphans := orphansFrom sel 0 peers }

/-- The three-way comparison of `compareBest` against the current best fit
for the rule index: an empty slot is always beaten. -/
def compareBestCmp (st : SearchState) (k : Nat) (rf : RuleFit) : Int :=
  match st.ruleFits.getD k none with
  | none => 1
  | some best => compareRuleFit rf best

/-- Install a strictly better fit at index `k` and discard every previously
accepted fit of a later rule (`compareBest`, case 1). -/
def resetState (k : Nat) (rf : RuleFit) (st : SearchState) : SearchState :=
  { st with ruleFits := resetAfter k (st.ruleFits.set k (some rf)) }

/-- Commit an equally good fit at index `k` after the deeper search
improved (`compareBest`, case 0). -/
def commitState (k : Nat) (rf : RuleFit) (st : SearchState) : SearchState :=
  { st with ruleFits := st.ruleFits.set k (some rf) }

/-- `fitWorker.compareBest`: a strictly better candidate replaces the best
fit at this index, discards the fits of later rules and recurses
(`deeper` is `fitRule(index+1)`); an equal candidate recurses
speculatively and commits only if the deeper search improved; a worse
candidate is discarded.  `lastRule` tells whether `index+1 = len(rules)`,
which is when `updateOrphanPeers(index+1)` recomputes the orphans. -/
def compareBest (peers : List FitPeer)
    (deeper : List Nat → SearchState → SearchState × Bool)
    (lastRule : Bool) (k : Nat) (sel' : List Nat) (rf : RuleFit)
    (st : SearchState) : SearchState × Bool :=
  if compareBestCmp st k rf = 1 then
    let st2 := (deeper sel' (resetState k rf st)).1
    (if lastRule then updateOrphanPeers peers sel' st2 else st2, true)
  else if compareBestCmp st k rf = 0 then
    let res := deeper sel' st
    if res.2 then (commitState k rf res.1, true)
    else (res.1, false)
  else (st, false)

/-- One iteration of the subset loop of `fixRuleWithCandidates`: skip the
binary numbers whose population count is not `count`, otherwise pick the
candidates of the mask, extend the selection, and fold the `compareBest`
verdict into the accumulated `better` flag.  The early exit test models
the loop break, which is equivalent because the exit flag is never
unset. -/
def fitStep (peers : List FitPeer)
    (deeper : List Nat → SearchState → SearchState × Bool)
    (cands : List (Nat × FitPeer)) (r : Rule) (lastRule : Bool) (k : Nat)
    (sel : List Nat) (count : Nat) (acc : SearchState × Bool) (m : Nat) :
    SearchState × Bool :=
  if acc.1.exit then acc
  else if onesCount m ≠ count then acc
  else
    let picked := pickPeersFromBinaryInt cands m
    let res := compareBest peers deeper lastRule k (sel ++ picked.map Prod.fst)
      (newRuleFit r (picked.map Prod.snd)) acc.1
    (res.1, res.2 || acc.2)

/-- `fitWorker.fitRule` together with `fixRuleWithCandidates`: at the end of
the rule list, set the early-exit flag when no isolation is required and
the accumulated result is already satisfied; otherwise enumerate every
subset of the candidates of size `count = min(Rule.Count, |candidates|)`
in increasing binary-mask order. -/
def fitRule (stores : List Store) (peers : List FitPeer) (needIso : Bool) :
    List Rule → Nat → List Nat → SearchState → SearchState × Bool
  | rest, k, sel, st =>
    if st.exit then (st, false)
    else
      match rest with
      | [] =>
          if !needIso && (mkRegionFit st).IsSatisfied then
            ({ st with exit := true }, false)
          else (st, false)
      | r :: rest' =>
          let cands := ruleCandidates stores peers sel r
          let count := min r.count cands.length
          let masks := List.range' (2 ^ count - 1) (2 ^ cands.length - 2 ^ count + 1)
          masks.foldl
            (fitStep peers
              (fun sel' st' => fitRule stores peers needIso rest' (k + 1) sel' st')
              cands r rest'.isEmpty k sel count)
            (st, false)

/-- `fitRegion`: build the worker (annotated, sorted peers; one empty best
fit slot per rule), run the search from rule index 0, and recompute the
orphan list at index 0 (which fires only for an empty rule list). -/
def fitRegion (stores : List Store) (region : Region) (rules : List Rule) : RegionFit :=
  let peers := newFitPeer stores region region.peers []
  let st0 : SearchState :=
    { ruleFits := List.replicate rules.length none, orphans := [], exit := false }
  let st1 := (fitRule stores peers (needIsolation rules) rules 0 [] st0).1
  let st2 := if rules.isEmpty then updateOrphanPeers peers [] st1 else st1
  { ruleFits := st2.ruleFits, orphanPeers := st2.orphans, regionStores := [] }

/-! ### Basic lemmas about `newRuleFit` -/

/-- The role-divergence condition of `ruleFitAppend`. -/
def diffRoleCond (rule : Rule) (p : FitPeer) : Bool :=
  !matchRoleStrict p rule.role || (p.peer.isWitness && !rule.isWitness)

theorem foldl_ruleFitAppend (rule : Rule) :
    ∀ (ps : List FitPeer) (rf : RuleFit),
      ps.foldl (ruleFitAppend rule) rf =
        { rf with
          peers := rf.peers ++ ps.map (fun p => p.peer)
          peersWithDifferentRole :=
            rf.peersWithDifferentRole ++ (ps.filter (diffRoleCond rule)).map (fun p => p.peer) }
  | [], rf => by simp
  | p :: ps, rf => by
      rw [List.foldl_cons, foldl_ruleFitAppend rule ps]
      simp only [ruleFitAppend, diffRoleCond, List.map_cons, List.filter_cons]
      by_cases h : (!matchRoleStrict p rule.role || (p.peer.isWitness && !rule.isWitness)) = true <;>
        simp [h]

theorem newRuleFit_peers (rule : Rule) (ps : List FitPeer) :
    (newRuleFit rule ps).peers = ps.map (fun p => p.peer) := by
  rw [newRuleFit, foldl_ruleFitAppend]; simp

theorem newRuleFit_rule (rule : Rule) (ps : List FitPeer) :
    (newRuleFit rule ps).rule = rule := by
  rw [newRuleFit, foldl_ruleFitAppend]

theorem newRuleFit_isolationScore (rule : Rule) (ps : List FitPeer) :
    (newRuleFit rule ps).isolationScore = isolationScore ps rule.locationLabels := by
  rw [newRuleFit, foldl_ruleFitAppend]

theorem newRuleFit_diffRole (rule : Rule) (ps : List FitPeer) :
    (newRuleFit rule ps).peersWithDifferentRole =
      (ps.filter (diffRoleCond rule)).map (fun p => p.peer) := by
  rw [newRuleFit, foldl_ruleFitAppend]; simp

/-! ### Sample data used in concrete scenarios -/

/-- A store located in the given datacenter. -/
def dcStore (i : Nat) (dc : String) : Store := { id := i, labels := [("dc", dc)] }

/-- A healthy voter peer. -/
def mkPeer (i st : Nat) : Peer :=
  { id := i, storeId := st, isLearner := false, isWitness := false }

/-- Three stores in three distinct datacenters. -/
def sampleStores3 : List Store := [dcStore 1 "1", dcStore 2 "2", dcStore 3 "3"]

/-- A region with one healthy peer on each of the three sample stores. -/
def sampleRegion3 : Region :=
  { peers := [mkPeer 1 1, mkPeer 2 2, mkPeer 3 3], leaderId := 1,
    downPeerIds := [], pendingPeerIds := [] }

/-- A rule asking for three voters spread over the `dc` label. -/
def sampleRule3 : Rule :=
  { count := 3, role := .Voter, isWitness := false,
    labelConstraints := fun _ => true, locationLabels := ["dc"] }

/-- A rule whose constraint set matches no store at all. -/
def sampleRuleNoStore : Rule :=
  { count := 2, role := .Voter, isWitness := false,
    labelConstraints := fun _ => false, locationLabels := [] }

/-- The sorted worker peers of the three-datacenter sample. -/
def samplePeers3 : List FitPeer :=
  newFitPeer sampleStores3 sampleRegion3 sampleRegion3.peers []

/-! ### C2: satisfaction correctness -/

/-- C2.  `RegionFit.IsSatisfied` is true iff the rule list is non-empty,
every rule fit is present with exactly `Rule.Count` peers and no peer of a
different role, and there are no orphan peers; a `RegionFit` built by the
fit search from an empty rule list is never satisfied. -/
theorem isSatisfied_iff (f : RegionFit) (stores : List Store) (region : Region) :
    (f.IsSatisfied = true ↔
      f.ruleFits ≠ [] ∧
      (∀ orf ∈ f.ruleFits, ∃ rf, orf = some rf ∧
        rf.peers.length = rf.rule.count ∧ rf.peersWithDifferentRole = []) ∧
      f.orphanPeers = []) ∧
    (fitRegion stores region []).IsSatisfied = false := by
  constructor
  · rw [RegionFit.IsSatisfied]
    split
    · next h =>
        constructor
        · intro hh; exact absurd hh (by simp)
        · rintro ⟨hne, -, -⟩
          exact absurd (List.length_eq_zero.mp h) hne
    · next h =>
        rw [Bool.and_eq_true, List.all_eq_true, decide_eq_true_iff]
        constructor
        · rintro ⟨hall, horph⟩
          refine ⟨fun he => h (by simp [he]), ?_, List.length_eq_zero.mp horph⟩
          intro orf hmem
          have := hall orf hmem
          match orf with
          | some rf =>
              simp only [RuleFit.IsSatisfied, Bool.and_eq_true, decide_eq_true_iff] at this
              exact ⟨rf, rfl, this.1, List.length_eq_zero.mp this.2⟩
          | none => exact absurd this (by simp)
        · rintro ⟨-, hall, horph⟩
          refine ⟨?_, by simp [horph]⟩
          intro orf hmem
          obtain ⟨rf, rfl, h1, h2⟩ := hall orf hmem
          simp [RuleFit.IsSatisfied, h1, h2]
  · rfl

/-! ### C3: isolation score -/

/-- All unordered pairs of a list, each earlier element paired with every
later one. -/
def allPairs : List FitPeer → List (FitPeer × FitPeer)
  | [] => []
  | x :: xs => xs.map (fun y => (x, y)) ++ allPairs xs

theorem sumPairs_eq_allPairs (labels : List String) :
    ∀ peers, sumPairs labels peers =
      ((allPairs peers).map (fun q => pairScore labels q.1 q.2)).sum
  | [] => rfl
  | p :: ps => by
      rw [sumPairs, allPairs, sumPairs_eq_allPairs labels ps]
      simp only [List.map_append, List.sum_append, List.map_map]
      rfl

theorem pairScore_nil_labels (p q : FitPeer) : pairScore [] p q = 0 := by
  rcases hp : p.store with _ | a <;> rcases hq : q.store with _ | b <;>
    simp [pairScore, hp, hq, compareLocation, compareLocationFrom]

/-- C3.  The isolation score is the sum, over all unordered pairs of peers,
of `100^(L-i-1)` where `i` is the most significant level at which the two
stores diverge (a pair without divergence contributes 0); zero- or
one-peer sets score 0; and three peers in three distinct datacenters
under the one-label hierarchy `[dc]` score exactly 3. -/
theorem isolationScore_spec (peers : List FitPeer) (labels : List String) :
    isolationScore peers labels =
      ((allPairs peers).map (fun q => pairScore labels q.1 q.2)).sum ∧
    (peers.length ≤ 1 → isolationScore peers labels = 0) ∧
    isolationScore samplePeers3 ["dc"] = 3 := by
  refine ⟨?_, fun _ => by rw [isolationScore]; simp_all, by decide⟩
  rw [isolationScore]
  split
  · next h =>
      rcases h with h | h
      · have : labels = [] := List.length_eq_zero.mp h
        subst this
        symm
        apply List.sum_eq_zero
        intro x hx
        obtain ⟨q, -, rfl⟩ := List.mem_map.mp hx
        exact pairScore_nil_labels q.1 q.2
      · match peers, h with
        | [], _ => rfl
        | [p], _ => rfl
  · exact sumPairs_eq_allPairs labels peers

/-! ### C4: the rule-fit comparator decides by the documented priority -/

/-- The spec's "strictly better" relation on two rule fits for the same
rule: more assigned peers; among equal peer counts fewer peers with a
different role; among ties a strictly higher isolation score. -/
def ruleFitBetter (a b : RuleFit) : Prop :=
  b.peers.length < a.peers.length ∨
    (a.peers.length = b.peers.length ∧
      a.peersWithDifferentRole.length < b.peersWithDifferentRole.length) ∨
    (a.peers.length = b.peers.length ∧
      a.peersWithDifferentRole.length = b.peersWithDifferentRole.length ∧
      b.isolationScore < a.isolationScore)

theorem compareRuleFit_char (a b : RuleFit) :
    (compareRuleFit a b = 1 ↔ ruleFitBetter a b) ∧
    (compareRuleFit a b = -1 ↔ ruleFitBetter b a) ∧
    (compareRuleFit a b = 0 ↔ ¬ruleFitBetter a b ∧ ¬ruleFitBetter b a) := by
  rw [compareRuleFit, ruleFitBetter, ruleFitBetter]
  split_ifs <;> refine ⟨?_, ?_, ?_⟩ <;> constructor <;> intro h <;>
    first
      | omega
      | (exfalso; revert h; decide)

/-- C4.  `compareRuleFit` returns 1 exactly on the strictly-better cases,
-1 exactly on the symmetric strictly-worse cases, and 0 exactly when the
two candidates tie on all three criteria. -/
theorem compareRuleFit_spec (a b : RuleFit) :
    (compareRuleFit a b = 1 ↔ ruleFitBetter a b) ∧
    (compareRuleFit a b = -1 ↔ ruleFitBetter b a) ∧
    (compareRuleFit a b = 0 ↔ ¬ruleFitBetter a b ∧ ¬ruleFitBetter b a) :=
  compareRuleFit_char a b

/-! ### C5: comparator consistency -/

theorem compareRuleFit_cases (a b : RuleFit) :
    compareRuleFit a b = -1 ∨ compareRuleFit a b = 0 ∨ compareRuleFit a b = 1 := by
  rw [compareRuleFit]
  split_ifs <;> simp

theorem ruleFitBetter_asymm {a b : RuleFit} :
    ruleFitBetter a b → ¬ruleFitBetter b a := by
  rw [ruleFitBetter, ruleFitBetter]
  omega

theorem ruleFitBetter_resolve {a b c : RuleFit} :
    ruleFitBetter c a → ruleFitBetter c b ∨ ruleFitBetter b a := by
  rw [ruleFitBetter, ruleFitBetter, ruleFitBetter]
  omega

/-- C5.  `compareRuleFit` is antisymmetric, and being at least as good is
transitive. -/
theorem compareRuleFit_consistent (a b c : RuleFit) :
    compareRuleFit a b = -compareRuleFit b a ∧
    (0 ≤ compareRuleFit a b → 0 ≤ compareRuleFit b c → 0 ≤ compareRuleFit a c) := by
  obtain ⟨h1ab, h2ab, h3ab⟩ := compareRuleFit_char a b
  obtain ⟨h1ba, h2ba, h3ba⟩ := compareRuleFit_char b a
  obtain ⟨h1bc, h2bc, h3bc⟩ := compareRuleFit_char b c
  obtain ⟨h1ac, h2ac, h3ac⟩ := compareRuleFit_char a c
  constructor
  · rcases compareRuleFit_cases a b with h | h | h <;> rw [h]
    · rw [h1ba.mpr (h2ab.mp h)]
    · rw [h3ba.mpr ⟨(h3ab.mp h).2, (h3ab.mp h).1⟩]; decide
    · rw [h2ba.mpr (h1ab.mp h)]; decide
  · intro hx hy
    have nba : ¬ruleFitBetter b a := by
      rcases compareRuleFit_cases a b with h | h | h
      · rw [h] at hx; exact absurd hx (by decide)
      · exact (h3ab.mp h).2
      · exact ruleFitBetter_asymm (h1ab.mp h)
    have ncb : ¬ruleFitBetter c b := by
      rcases compareRuleFit_cases b c with h | h | h
      · rw [h] at hy; exact absurd hy (by decide)
      · exact (h3bc.mp h).2
      · exact ruleFitBetter_asymm (h1bc.mp h)
    rcases compareRuleFit_cases a c with h | h | h
    · rcases ruleFitBetter_resolve (h2ac.mp h) with hcb | hba
      · exact absurd hcb ncb
      · exact absurd hba nba
    · rw [h]
    · rw [h]; decide

/-- A rule used only to populate concrete rule fits. -/
def sampleRulePlain : Rule :=
  { count := 1, role := .Voter, isWitness := false,
    labelConstraints := fun _ => true, locationLabels := [] }

/-- A concrete rule fit with one assigned peer. -/
def sampleRuleFitA : RuleFit :=
  { rule := sampleRulePlain, peers := [mkPeer 1 1], peersWithDifferentRole := [],
    isolationScore := 0 }

/-- A concrete rule fit with no assigned peer. -/
def sampleRuleFitB : RuleFit :=
  { rule := sampleRulePlain, peers := [], peersWithDifferentRole := [],
    isolationScore := 5 }

theorem compareRuleFit_consistent_witness :
    compareRuleFit sampleRuleFitA sampleRuleFitB =
      -compareRuleFit sampleRuleFitB sampleRuleFitA ∧
    0 ≤ compareRuleFit sampleRuleFitA sampleRuleFitB :=
  ⟨(compareRuleFit_consistent sampleRuleFitA sampleRuleFitB sampleRuleFitB).1,
    (compareRuleFit_consistent sampleRuleFitA sampleRuleFitB sampleRuleFitB).2
      (by decide) (by decide)⟩

/-! ### C6: the incremental replacement checker -/

/-- C6.  `RegionFit.Replace` fails closed when no rule fit owns a peer on the
source store, rejects a destination that fails the owning rule's label
constraints, accepts trivially a destination already hosting a member of
the same rule fit, and otherwise accepts exactly when the isolation score
recomputed with the destination substituted is at least the original. -/
theorem replace_spec (f : RegionFit) (src : Nat) (dst : Store) (region : Region) :
    (getRuleFitByStoreID f src = none → f.Replace src dst region = false) ∧
    (∀ fit, getRuleFitByStoreID f src = some fit →
      (MatchLabelConstraints (some dst) fit.rule.labelConstraints = false →
        f.Replace src dst region = false) ∧
      (MatchLabelConstraints (some dst) fit.rule.labelConstraints = true →
        (fit.contain dst.id = true → f.Replace src dst region = true) ∧
        (fit.contain dst.id = false →
          (f.Replace src dst region = true ↔
            fit.isolationScore ≤
              isolationScore
                (newFitPeer f.regionStores region fit.peers
                  [replaceFitPeerOpt src dst])
                fit.rule.locationLabels)))) := by
  constructor
  · intro h
    rw [RegionFit.Replace, h]
  · intro fit h
    refine ⟨fun hm => ?_, fun hm => ⟨fun hc => ?_, fun hc => ?_⟩⟩
    · rw [RegionFit.Replace, h]
      simp [hm]
    · rw [RegionFit.Replace, h]
      simp [hm, hc]
    · rw [RegionFit.Replace, h]
      simp [hm, hc]

/-- A region fit with no rule fits at all, so no store owns a peer. -/
def sampleEmptyFit : RegionFit :=
  { ruleFits := [], orphanPeers := [], regionStores := [] }

theorem replace_spec_witness :
    sampleEmptyFit.Replace 1 (dcStore 4 "4") sampleRegion3 = false :=
  (replace_spec sampleEmptyFit 1 (dcStore 4 "4") sampleRegion3).1 rfl

/-! ### C7: peers with a different role -/

/-- A witness voter peer on store 1; its role matches a voter rule, yet it
is still counted in `PeersWithDifferentRole` under a non-witness rule. -/
def witnessFitPeer : FitPeer :=
  { peer := { id := 1, storeId := 1, isLearner := false, isWitness := true },
    store := some (dcStore 1 "1"), isLeader := false }

/-- C7 counterexample.  `PeersWithDifferentRole` is not the set of assigned
peers whose role differs from the rule's required role: a witness peer
assigned to a non-witness rule is recorded even though its role matches. -/
theorem newRuleFit_diffRole_not_role_only :
    ¬ (∀ (rule : Rule) (peers : List FitPeer),
        (newRuleFit rule peers).peersWithDifferentRole =
          (peers.filter (fun p => !matchRoleStrict p rule.role)).map (fun p => p.peer)) := by
  intro h
  have hm : matchRoleStrict witnessFitPeer sampleRulePlain.role = true := by decide
  have := h sampleRulePlain [witnessFitPeer]
  rw [newRuleFit_diffRole] at this
  revert this
  decide

/-- C7 amended.  `PeersWithDifferentRole` is exactly the assigned peers that
fail the strict role match or are witness peers assigned to a non-witness
rule, in assignment order. -/
theorem newRuleFit_diffRole_spec (rule : Rule) (peers : List FitPeer) :
    (newRuleFit rule peers).peersWithDifferentRole =
      (peers.filter (fun p =>
        !matchRoleStrict p rule.role || (p.peer.isWitness && !rule.isWitness))).map
        (fun p => p.peer) := by
  rw [newRuleFit_diffRole]
  rfl

/-! ### C10: strict role matching -/

/-- C10.  The role matching used by the search: a Voter rule accepts any
non-learner (leader or not), a Leader rule only the current leader, a
Follower rule only non-learner non-leaders, a Learner rule only learners;
and a witness peer assigned to a non-witness rule lands in
`PeersWithDifferentRole` even when its role matches. -/
theorem matchRoleStrict_spec (p : FitPeer) :
    matchRoleStrict p .Voter = !p.peer.isLearner ∧
    matchRoleStrict p .Leader = p.isLeader ∧
    matchRoleStrict p .Follower = (!p.peer.isLearner && !p.isLeader) ∧
    matchRoleStrict p .Learner = p.peer.isLearner ∧
    (∀ (rule : Rule) (peers : List FitPeer),
      p ∈ peers → p.peer.isWitness = true → rule.isWitness = false →
      p.peer ∈ (newRuleFit rule peers).peersWithDifferentRole) := by
  refine ⟨rfl, rfl, rfl, rfl, ?_⟩
  intro rule peers hmem hw hrw
  rw [newRuleFit_diffRole]
  refine List.mem_map.mpr ⟨p, List.mem_filter.mpr ⟨hmem, ?_⟩, rfl⟩
  simp [diffRoleCond, hw, hrw]

theorem matchRoleStrict_spec_witness :
    matchRoleStrict witnessFitPeer .Voter = !witnessFitPeer.peer.isLearner ∧
    witnessFitPeer.peer ∈
      (newRuleFit sampleRulePlain [witnessFitPeer]).peersWithDifferentRole :=
  ⟨(matchRoleStrict_spec witnessFitPeer).1,
    (matchRoleStrict_spec witnessFitPeer).2.2.2.2 sampleRulePlain [witnessFitPeer]
      (List.mem_singleton.mpr rfl) rfl rfl⟩

/-! ### C9: determinism of the fit search -/

theorem fitPeerLe_total (region : Region) (a b : FitPeer) :
    fitPeerLe region a b = false → fitPeerLe region b a = true := by
  rw [fitPeerLe, fitPeerLe]
  simp only [Bool.or_eq_false_iff, Bool.or_eq_true, Bool.and_eq_false_iff,
    Bool.and_eq_true, decide_eq_false_iff_not, decide_eq_true_iff]
  omega

theorem fitPeerLe_trans (region : Region) (a b c : FitPeer) :
    fitPeerLe region a b = true → fitPeerLe region b c = true →
    fitPeerLe region a c = true := by
  rw [fitPeerLe, fitPeerLe, fitPeerLe]
  simp only [Bool.or_eq_true, Bool.and_eq_true, decide_eq_true_iff]
  omega

theorem fitPeerLe_antisymm_id (region : Region) (a b : FitPeer) :
    fitPeerLe region a b = true → fitPeerLe region b a = true →
    a.peer.id = b.peer.id := by
  rw [fitPeerLe, fitPeerLe]
  simp only [Bool.or_eq_true, Bool.and_eq_true, decide_eq_true_iff]
  omega

theorem insertPeer_perm (region : Region) (a : FitPeer) :
    ∀ l, (insertPeer region a l).Perm (a :: l)
  | [] => List.Perm.refl _
  | b :: l => by
      rw [insertPeer]
      split
      · exact List.Perm.refl _
      · exact ((insertPeer_perm region a l).cons b).trans (List.Perm.swap a b l)

theorem sortPeers_perm (region : Region) : ∀ l, (sortPeers region l).Perm l
  | [] => List.Perm.refl _
  | a :: l =>
      (insertPeer_perm region a (sortPeers region l)).trans
        ((sortPeers_perm region l).cons a)

/-- Sortedness of the worker peer order. -/
def PeerSorted (region : Region) (l : List FitPeer) : Prop :=
  l.Pairwise (fun x y => fitPeerLe region x y = true)

theorem insertPeer_sorted (region : Region) (a : FitPeer) :
    ∀ l, PeerSorted region l → PeerSorted region (insertPeer region a l)
  | [], _ => List.pairwise_singleton _ a
  | b :: l, h => by
      rw [insertPeer]
      rcases List.pairwise_cons.mp h with ⟨hb, hl⟩
      split
      · next hab =>
          refine List.pairwise_cons.mpr ⟨?_, h⟩
          intro x hx
          rcases List.mem_cons.mp hx with rfl | hx
          · exact hab
          · exact fitPeerLe_trans region a b x hab (hb x hx)
      · next hab =>
          have hba := fitPeerLe_total region a b (Bool.of_not_eq_true hab)
          refine List.pairwise_cons.mpr ⟨?_, insertPeer_sorted region a l hl⟩
          intro x hx
          rcases List.mem_cons.mp ((insertPeer_perm region a l).mem_iff.mp hx) with
            rfl | hx
          · exact hba
          · exact hb x hx

theorem sortPeers_sorted (region : Region) :
    ∀ l, PeerSorted region (sortPeers region l)
  | [] => List.Pairwise.nil
  | a :: l => insertPeer_sorted region a _ (sortPeers_sorted region l)

/-- A sorted permutation of a list of peers with pairwise distinct ids is
unique. -/
theorem sorted_perm_unique (region : Region) :
    ∀ l₁ l₂ : List FitPeer, l₁.Perm l₂ → PeerSorted region l₁ →
      PeerSorted region l₂ → (l₁.map (fun p => p.peer.id)).Nodup → l₁ = l₂
  | [], l₂, hp, _, _, _ => (hp.nil_eq).symm ▸ rfl
  | a :: t₁, [], hp, _, _, _ => absurd hp.symm (by simp)
  | a :: t₁, b :: t₂, hp, hs₁, hs₂, hnd => by
      rcases List.pairwise_cons.mp hs₁ with ⟨ha, ht₁⟩
      rcases List.pairwise_cons.mp hs₂ with ⟨hb, ht₂⟩
      have hab : a = b := by
        have hmb : b ∈ a :: t₁ := hp.mem_iff.mpr (List.mem_cons_self b t₂)
        rcases List.mem_cons.mp hmb with rfl | hmb
        · rfl
        · have hma : a ∈ b :: t₂ := hp.mem_iff.mp (List.mem_cons_self a t₁)
          rcases List.mem_cons.mp hma with rfl | hma
          · rfl
          · have h1 : fitPeerLe region a b = true := ha b hmb
            have h2 : fitPeerLe region b a = true := hb a hma
            have hid : a.peer.id = b.peer.id :=
              fitPeerLe_antisymm_id region a b h1 h2
            exfalso
            rcases List.nodup_cons.mp hnd with ⟨hni, -⟩
            refine hni ?_
            show a.peer.id ∈ List.map (fun p => p.peer.id) t₁
            rw [hid]
            exact List.mem_map_of_mem (fun p => p.peer.id) hmb
      subst hab
      have hpt : t₁.Perm t₂ := hp.cons_inv
      rw [sorted_perm_unique region t₁ t₂ hpt ht₁ ht₂ (List.nodup_cons.mp hnd).2]

/-- C9.  The fit search is deterministic: two runs on identical inputs give
identical `RegionFit`s (it is a pure function of its inputs), and — the
real content behind modelling the source's unstable `sort.Slice` — when
the region's peer ids are pairwise distinct, the health-then-id order of
the worker peers has a unique sorted arrangement, so the peer ordering
(and with it the subset enumeration, the chosen `RuleFits` and the
`OrphanPeers` order) cannot vary between runs. -/
theorem fitRegion_deterministic (stores : List Store) (region : Region)
    (rules : List Rule)
    (hids : (region.peers.map (fun p => p.id)).Nodup) :
    fitRegion stores region rules = fitRegion stores region rules ∧
    ∀ l : List FitPeer,
      l.Perm (newFitPeer stores region region.peers []) →
      PeerSorted region l →
      l = newFitPeer stores region region.peers [] := by
  refine ⟨rfl, fun l hperm hsort => ?_⟩
  have hids2 : (l.map (fun p => p.peer.id)).Nodup := by
    have h1 : ((newFitPeer stores region region.peers []).map
        (fun p => p.peer.id)).Nodup := by
      have hx : ((newFitPeer stores region region.peers []).map
          (fun p => p.peer.id)).Perm (region.peers.map (fun p => p.id)) := by
        rw [newFitPeer]
        refine ((sortPeers_perm region _).map _).trans ?_
        rw [List.map_map]
        exact List.Perm.refl _
      exact hx.nodup_iff.mpr hids
    exact ((hperm.map (fun p => p.peer.id)).nodup_iff).mpr h1
  exact sorted_perm_unique region l _ hperm hsort
    (sortPeers_sorted region _) hids2

theorem fitRegion_deterministic_witness :
    fitRegion sampleStores3 sampleRegion3 [sampleRule3] =
      fitRegion sampleStores3 sampleRegion3 [sampleRule3] ∧
    samplePeers3 = newFitPeer sampleStores3 sampleRegion3 sampleRegion3.peers [] :=
  ⟨(fitRegion_deterministic sampleStores3 sampleRegion3 [sampleRule3] (by decide)).1,
    (fitRegion_deterministic sampleStores3 sampleRegion3 [sampleRule3] (by decide)).2
      samplePeers3 (List.Perm.refl _) (sortPeers_sorted sampleRegion3 _)⟩

/-! ### Infrastructure for the partition property of the fit search -/

theorem onesCountAux_congr : ∀ (m f₁ f₂ : Nat), m ≤ f₁ → m ≤ f₂ →
    onesCountAux f₁ m = onesCountAux f₂ m
  | 0, f₁, f₂, _, _ => by cases f₁ <;> cases f₂ <;> rfl
  | m + 1, f₁ + 1, f₂ + 1, h1, h2 => by
      rw [onesCountAux, onesCountAux]
      have hle : (m + 1) / 2 ≤ m := by omega
      rw [onesCountAux_congr ((m + 1) / 2) f₁ f₂ (by omega) (by omega)]

theorem onesCount_div2 (m : Nat) (hm : m ≠ 0) :
    onesCount m = m % 2 + onesCount (m / 2) := by
  match m, hm with
  | m + 1, _ =>
      rw [onesCount, onesCount, onesCountAux]
      congr 1
      exact onesCountAux_congr ((m + 1) / 2) m ((m + 1) / 2) (by omega) (by omega)

theorem onesCount_two_pow_sub_one : ∀ c, onesCount (2 ^ c - 1) = c
  | 0 => rfl
  | c + 1 => by
      have hp : 1 ≤ 2 ^ c := Nat.one_le_two_pow
      have hne : 2 ^ (c + 1) - 1 ≠ 0 := by
        rw [pow_succ]; omega
      rw [onesCount_div2 _ hne]
      have h1 : (2 ^ (c + 1) - 1) % 2 = 1 := by rw [pow_succ]; omega
      have h2 : (2 ^ (c + 1) - 1) / 2 = 2 ^ c - 1 := by rw [pow_succ]; omega
      rw [h1, h2, onesCount_two_pow_sub_one c]
      omega

theorem pick_sublist : ∀ (cands : List (Nat × FitPeer)) (m : Nat),
    (pickPeersFromBinaryInt cands m).Sublist cands
  | [], _ => List.Sublist.refl _
  | c :: cs, m => by
      rw [pickPeersFromBinaryInt]
      split
      · split
        · exact (List.nil_sublist cs).cons₂ c
        · exact (pick_sublist cs (m / 2)).cons₂ c
      · split
        · simp
        · exact (pick_sublist cs (m / 2)).cons c

theorem candidateScan_mem (sel : List Nat) (r : Rule) :
    ∀ (ps : List FitPeer) (i : Nat) (x : Nat × FitPeer),
      x ∈ candidateScan sel r i ps →
      (∃ t, t < ps.length ∧ x.1 = i + t ∧ ps.getD t default = x.2) ∧
        sel.contains x.1 = false
  | [], _, _, hx => absurd hx (List.not_mem_nil _)
  | p :: ps, i, x, hx => by
      rw [candidateScan] at hx
      split at hx
      · next hc =>
          rcases List.mem_cons.mp hx with rfl | hx
          · exact ⟨⟨0, by simp, by simp, rfl⟩,
              by rcases Bool.and_eq_true .. |>.mp hc with ⟨h1, -⟩
                 simpa using h1⟩
          · obtain ⟨⟨t, ht, hxi, hg⟩, hsel⟩ := candidateScan_mem sel r ps (i + 1) x hx
            exact ⟨⟨t + 1, by simpa using ht, by omega, hg⟩, hsel⟩
      · obtain ⟨⟨t, ht, hxi, hg⟩, hsel⟩ := candidateScan_mem sel r ps (i + 1) x hx
        exact ⟨⟨t + 1, by simpa using ht, by omega, hg⟩, hsel⟩

theorem candidateScan_fst_lt (sel : List Nat) (r : Rule) :
    ∀ (ps : List FitPeer) (i : Nat),
      (candidateScan sel r i ps).Pairwise (fun a b => a.1 < b.1)
  | [], _ => List.Pairwise.nil
  | p :: ps, i => by
      rw [candidateScan]
      split
      · refine List.pairwise_cons.mpr ⟨?_, candidateScan_fst_lt sel r ps (i + 1)⟩
        intro x hx
        obtain ⟨⟨t, -, hxi, -⟩, -⟩ := candidateScan_mem sel r ps (i + 1) x hx
        omega
      · exact candidateScan_fst_lt sel r ps (i + 1)

theorem ruleCandidates_mem (stores : List Store) (peers : List FitPeer)
    (sel : List Nat) (r : Rule) :
    ∀ x ∈ ruleCandidates stores peers sel r,
      x.1 < peers.length ∧ peers.getD x.1 default = x.2 ∧
        sel.contains x.1 = false := by
  intro x hx
  rw [ruleCandidates] at hx
  split at hx
  · obtain ⟨⟨t, ht, hxi, hg⟩, hsel⟩ := candidateScan_mem sel r peers 0 x hx
    refine ⟨by omega, ?_, hsel⟩
    rw [show x.1 = t by omega]
    exact hg
  · exact absurd hx (List.not_mem_nil _)

theorem ruleCandidates_fst_nodup (stores : List Store) (peers : List FitPeer)
    (sel : List Nat) (r : Rule) :
    ((ruleCandidates stores peers sel r).map Prod.fst).Nodup := by
  rw [ruleCandidates]
  split
  · exact (List.Pairwise.map Prod.fst (fun a b hab => hab)
      (candidateScan_fst_lt sel r peers 0)).imp Nat.ne_of_lt
  · exact List.Pairwise.nil

theorem contains_cons_eq (a x : Nat) (sel : List Nat) :
    (a :: sel).contains x = ((x == a) || sel.contains x) := rfl

theorem contains_eq_false_iff (l : List Nat) (a : Nat) :
    l.contains a = false ↔ a ∉ l := by
  rw [← Bool.not_eq_true, not_iff_not]
  exact List.elem_iff

theorem contains_append (l₁ l₂ : List Nat) (a : Nat) :
    (l₁ ++ l₂).contains a = (l₁.contains a || l₂.contains a) := by
  induction l₁ with
  | nil => rfl
  | cons x t ih =>
      rw [List.cons_append, contains_cons_eq, contains_cons_eq, ih, Bool.or_assoc]

/-- `orphansFrom` only looks at selection membership at or beyond its start
index. -/
theorem orphansFrom_congr_ge (sel₁ sel₂ : List Nat) :
    ∀ (ps : List FitPeer) (i : Nat),
      (∀ x, i ≤ x → sel₁.contains x = sel₂.contains x) →
      orphansFrom sel₁ i ps = orphansFrom sel₂ i ps
  | [], _, _ => rfl
  | p :: ps, i, h => by
      rw [orphansFrom, orphansFrom, h i (le_refl i),
        orphansFrom_congr_ge sel₁ sel₂ ps (i + 1) (fun x hx => h x (by omega))]

theorem orphansFrom_nil_sel : ∀ (ps : List FitPeer) (i : Nat),
    orphansFrom [] i ps = ps.map (fun p => p.peer)
  | [], _ => rfl
  | p :: ps, i => by
      rw [orphansFrom, orphansFrom_nil_sel ps (i + 1)]
      rfl

/-- Selecting one more in-range, not-yet-selected position removes exactly
that peer from the orphan list, up to permutation. -/
theorem orphansFrom_extract (sel : List Nat) (j : Nat) (hj : sel.contains j = false) :
    ∀ (ps : List FitPeer) (i : Nat), i ≤ j → j < i + ps.length →
      (orphansFrom sel i ps).Perm
        ((ps.getD (j - i) default).peer :: orphansFrom (j :: sel) i ps)
  | [], i, h1, h2 => by simp at h2; omega
  | p :: ps, i, h1, h2 => by
      rcases Nat.eq_or_lt_of_le h1 with heq | hlt
      · subst heq
        rw [orphansFrom, orphansFrom, hj, Nat.sub_self]
        have hcj : (i :: sel).contains i = true := by
          rw [contains_cons_eq]
          simp
        rw [hcj]
        simp only [Bool.false_eq_true, if_false, if_true, List.getD_cons_zero]
        refine List.Perm.cons p.peer ?_
        rw [orphansFrom_congr_ge (i :: sel) sel ps (i + 1) ?_]
        · intro x hx
          have hxne : (x == i) = false := by
            simp only [beq_eq_false_iff_ne, ne_eq]
            omega
          rw [contains_cons_eq, hxne, Bool.false_or]
      · rw [orphansFrom, orphansFrom]
        have hcontains : (j :: sel).contains i = sel.contains i := by
          have hne : (i == j) = false := by
            simp only [beq_eq_false_iff_ne, ne_eq]
            omega
          rw [contains_cons_eq, hne, Bool.false_or]
        rw [hcontains]
        obtain ⟨t, ht⟩ : ∃ t, j - i = t + 1 := ⟨j - i - 1, by omega⟩
        rw [ht, List.getD_cons_succ]
        have htj : t = j - (i + 1) := by omega
        by_cases hci : sel.contains i = true
        · rw [hci]
          simp only [if_true]
          rw [htj]
          exact orphansFrom_extract sel j hj ps (i + 1) (by omega) (by simp at h2; omega)
        · rw [Bool.of_not_eq_true hci]
          simp only [Bool.false_eq_true, if_false]
          refine List.Perm.trans
            (List.Perm.cons p.peer ?_) (List.Perm.swap _ _ _)
          rw [htj]
          exact orphansFrom_extract sel j hj ps (i + 1) (by omega) (by simp at h2; omega)


/-- Concatenated assigned peers of a list of rule fits. -/
def peersOf : List RuleFit → List Peer
  | [] => []
  | rf :: l => rf.peers ++ peersOf l

/-- Concatenated assigned peers over optional rule fits (absent entries
contribute nothing). -/
def fitPeersOf : List (Option RuleFit) → List Peer
  | [] => []
  | none :: l => fitPeersOf l
  | some rf :: l => rf.peers ++ fitPeersOf l

theorem fitPeersOf_map_some : ∀ rfs : List RuleFit,
    fitPeersOf (rfs.map some) = peersOf rfs
  | [] => rfl
  | rf :: l => by rw [List.map_cons, fitPeersOf, peersOf, fitPeersOf_map_some l]

theorem fitPeersOf_append : ∀ l₁ l₂ : List (Option RuleFit),
    fitPeersOf (l₁ ++ l₂) = fitPeersOf l₁ ++ fitPeersOf l₂
  | [], _ => rfl
  | none :: l, l₂ => by
      rw [List.cons_append, fitPeersOf, fitPeersOf, fitPeersOf_append l l₂]
  | some rf :: l, l₂ => by
      rw [List.cons_append, fitPeersOf, fitPeersOf, fitPeersOf_append l l₂,
        List.append_assoc]

theorem fitPeersOf_replicate_none : ∀ q, fitPeersOf (List.replicate q none) = []
  | 0 => rfl
  | q + 1 => by rw [List.replicate_succ, fitPeersOf, fitPeersOf_replicate_none q]

/-- The partition core: a block of well-formed, fresh, duplicate-free picks
together with the orphans of the enlarged selection is a permutation of
the orphans of the original selection. -/
theorem picks_orphans_partition (peers : List FitPeer) :
    ∀ (I : List (Nat × FitPeer)) (sel : List Nat),
      (∀ x ∈ I, x.1 < peers.length ∧ peers.getD x.1 default = x.2 ∧
        sel.contains x.1 = false) →
      (I.map Prod.fst).Nodup →
      (I.map (fun x => x.2.peer) ++
        orphansFrom (sel ++ I.map Prod.fst) 0 peers).Perm
        (orphansFrom sel 0 peers)
  | [], sel, _, _ => by
      rw [List.map_nil, List.map_nil, List.append_nil, List.nil_append]
  | (j, p) :: I, sel, hwf, hnd => by
      obtain ⟨hjlt, hjget, hjsel⟩ := hwf (j, p) (List.mem_cons_self _ _)
      have hndt : (I.map Prod.fst).Nodup := (List.nodup_cons.mp hnd).2
      have hjnotI : (I.map Prod.fst).contains j = false :=
        (contains_eq_false_iff _ _).mpr (List.nodup_cons.mp hnd).1
      -- peel the head pick off with the extraction lemma, then apply the
      -- induction hypothesis to the tail with the selection enlarged by j
      have hih := picks_orphans_partition peers I (sel ++ [j]) ?_ hndt
      · rw [List.map_cons, List.map_cons, List.cons_append]
        have hsel2 : sel ++ j :: I.map Prod.fst = (sel ++ [j]) ++ I.map Prod.fst := by
          rw [List.append_assoc, List.singleton_append]
        rw [hsel2]
        refine List.Perm.trans (List.Perm.cons p.peer hih) ?_
        have hext := orphansFrom_extract sel j hjsel peers 0 (Nat.zero_le j)
          (by omega)
        rw [Nat.sub_zero, hjget] at hext
        refine List.Perm.trans ?_ hext.symm
        refine List.Perm.cons p.peer ?_
        rw [orphansFrom_congr_ge (sel ++ [j]) (j :: sel) peers 0 ?_]
        intro x hx
        rw [contains_append, contains_cons_eq, contains_cons_eq]
        rcases h : (x == j) with _ | _ <;> simp
      · intro x hx
        obtain ⟨h1, h2, h3⟩ := hwf x (List.mem_cons_of_mem _ hx)
        refine ⟨h1, h2, ?_⟩
        rw [contains_append, h3, contains_cons_eq, Bool.false_or]
        have hxj : (x.1 == j) = false := by
          rw [beq_eq_false_iff_ne]
          intro heq
          exact absurd ((contains_eq_false_iff _ _).mp hjnotI)
            (by
              intro hc
              exact hc (heq ▸ List.mem_map_of_mem Prod.fst hx))
        rw [hxj]
        rfl

/-! ### List surgery on the per-rule best-fit slots -/

theorem resetAfter_cons (k : Nat) (a : Option RuleFit) (l : List (Option RuleFit)) :
    resetAfter (k + 1) (a :: l) = a :: resetAfter k l := by
  rw [resetAfter, resetAfter, List.take_succ_cons, List.length_cons, List.cons_append]
  have h : l.length + 1 - (k + 1 + 1) = l.length - (k + 1) := by omega
  rw [h]

theorem resetAfter_set_eq (v : Option RuleFit) :
    ∀ (l : List (Option RuleFit)) (k : Nat), k < l.length →
      resetAfter k (l.set k v) =
        l.take k ++ v :: List.replicate (l.length - (k + 1)) none
  | [], k, h => absurd h (by simp)
  | a :: l, 0, _ => by
      rw [List.set_cons_zero, resetAfter]
      simp only [List.take_succ_cons, List.take_zero, List.length_cons,
        List.nil_append, List.cons_append]
  | a :: l, k + 1, h => by
      rw [List.set_cons_succ, resetAfter_cons,
        resetAfter_set_eq v l k (by simp at h; omega), List.take_succ_cons,
        List.cons_append]
      simp only [List.length_cons]
      have heq : l.length + 1 - (k + 1 + 1) = l.length - (k + 1) := by omega
      rw [heq]

theorem getD_append_len {α : Type} (d : α) :
    ∀ (A B : List α) (j : Nat), (A ++ B).getD (A.length + j) d = B.getD j d
  | [], B, j => by rw [List.nil_append, List.length_nil, Nat.zero_add]
  | a :: A, B, j => by
      rw [List.cons_append, List.length_cons]
      have h : A.length + 1 + j = A.length + j + 1 := by omega
      rw [h, List.getD_cons_succ]
      exact getD_append_len d A B j

theorem getD_replicate_none :
    ∀ (q i : Nat), (List.replicate q (none : Option RuleFit)).getD i none = none
  | 0, _ => rfl
  | q + 1, 0 => rfl
  | q + 1, i + 1 => by
      rw [List.replicate_succ, List.getD_cons_succ, getD_replicate_none q i]

theorem take_len_append {α : Type} :
    ∀ (A : List α) (v : α) (B : List α),
      (A ++ v :: B).take (A.length + 1) = A ++ [v]
  | [], v, B => by simp
  | a :: A, v, B => by
      rw [List.cons_append, List.length_cons, List.take_succ_cons,
        take_len_append A v B, List.cons_append]

theorem set_len_append {α : Type} :
    ∀ (A : List α) (v w : α) (B : List α),
      (A ++ v :: B).set A.length w = A ++ w :: B
  | [], _, _, _ => rfl
  | a :: A, v, w, B => by
      rw [List.cons_append, List.length_cons, List.set_cons_succ,
        set_len_append A v w B, List.cons_append]

theorem take_succ_getD {α : Type} (d : α) :
    ∀ (l : List α) (k : Nat), k < l.length →
      l.take (k + 1) = l.take k ++ [l.getD k d]
  | [], k, h => absurd h (by simp)
  | a :: l, 0, _ => by simp
  | a :: l, k + 1, h => by
      rw [List.take_succ_cons, List.getD_cons_succ,
        take_succ_getD d l k (by simp at h; omega), List.take_succ_cons,
        List.cons_append]

theorem take_prefix_append {α : Type} (A B : List α) :
    (A ++ B).take A.length = A := List.take_left A B

/-! ### The search invariant -/

/-- A pick block is well formed for a selection: every picked position is in
range, carries the worker peer at that position, and was not selected
before; the positions are pairwise distinct. -/
abbrev SelOK (peers : List FitPeer) (sel : List Nat) (I : List (Nat × FitPeer)) :
    Prop :=
  (∀ x ∈ I, x.1 < peers.length ∧ peers.getD x.1 default = x.2 ∧
    sel.contains x.1 = false) ∧
  (I.map Prod.fst).Nodup

/-- Postcondition of a successful search below rule index `k`: the slots
before `k` are untouched, the slots from `k` on are all present and their
assigned peers are exactly the peers of a well-formed pick block, and the
orphan list is the complement of the enlarged selection. -/
abbrev Inv (peers : List FitPeer) (k : Nat) (sel : List Nat)
    (st0 st : SearchState) : Prop :=
  ∃ (rfs : List RuleFit) (I : List (Nat × FitPeer)),
    st.ruleFits = st0.ruleFits.take k ++ rfs.map some ∧
    peersOf rfs = I.map (fun x => x.2.peer) ∧
    SelOK peers sel I ∧
    st.orphans = orphansFrom (sel ++ I.map Prod.fst) 0 peers

/-- Full behavioural specification of `fitRule` at rule index `k` with `m`
remaining rules: a run that reports no improvement leaves the best-fit
slots and the orphan list untouched; a run that reports an improvement
establishes the invariant; an exited worker does nothing; and a
non-exited worker whose slot at `k` is empty always improves. -/
abbrev FitSpec (peers : List FitPeer)
    (f : List Nat → SearchState → SearchState × Bool) (k m : Nat) : Prop :=
  ∀ sel st, st.ruleFits.length = k + m →
    (f sel st).1.ruleFits.length = st.ruleFits.length ∧
    ((f sel st).2 = false →
      (f sel st).1.ruleFits = st.ruleFits ∧ (f sel st).1.orphans = st.orphans) ∧
    ((f sel st).2 = true → Inv peers k sel st (f sel st).1) ∧
    (st.exit = true → f sel st = (st, false)) ∧
    (m ≠ 0 → st.exit = false → st.ruleFits.getD k none = none →
      (f sel st).2 = true)

/-- The invariant only inspects the prefix of the reference state's slots. -/
theorem Inv_retarget (peers : List FitPeer) (k : Nat) (sel : List Nat)
    (stA stB st : SearchState)
    (h : stA.ruleFits.take k = stB.ruleFits.take k) :
    Inv peers k sel stA st → Inv peers k sel stB st := by
  rintro ⟨rfs, I, h1, h2, h3, h4⟩
  exact ⟨rfs, I, by rw [h1, h], h2, h3, h4⟩

theorem foldl_inv {α β : Type} {P : β → Prop} (f : β → α → β)
    (hf : ∀ b a, P b → P (f b a)) : ∀ (l : List α) (b : β), P b → P (l.foldl f b)
  | [], _, hb => hb
  | a :: l, b, hb => foldl_inv f hf l (f b a) (hf b a hb)

/-! ### Behaviour of `compareBest` -/

theorem compareBest_one (peers : List FitPeer)
    (deeper : List Nat → SearchState → SearchState × Bool) (lastRule : Bool)
    (k : Nat) (sel' : List Nat) (rf : RuleFit) (st : SearchState)
    (h : compareBestCmp st k rf = 1) :
    compareBest peers deeper lastRule k sel' rf st =
      (if lastRule then
          updateOrphanPeers peers sel' (deeper sel' (resetState k rf st)).1
        else (deeper sel' (resetState k rf st)).1,
        true) := by
  rw [compareBest, if_pos h]

theorem compareBest_zero (peers : List FitPeer)
    (deeper : List Nat → SearchState → SearchState × Bool) (lastRule : Bool)
    (k : Nat) (sel' : List Nat) (rf : RuleFit) (st : SearchState)
    (h1 : ¬compareBestCmp st k rf = 1) (h2 : compareBestCmp st k rf = 0) :
    compareBest peers deeper lastRule k sel' rf st =
      (if (deeper sel' st).2 then (commitState k rf (deeper sel' st).1, true)
       else ((deeper sel' st).1, false)) := by
  rw [compareBest, if_neg h1, if_pos h2]

theorem compareBest_neg (peers : List FitPeer)
    (deeper : List Nat → SearchState → SearchState × Bool) (lastRule : Bool)
    (k : Nat) (sel' : List Nat) (rf : RuleFit) (st : SearchState)
    (h1 : ¬compareBestCmp st k rf = 1) (h2 : ¬compareBestCmp st k rf = 0) :
    compareBest peers deeper lastRule k sel' rf st = (st, false) := by
  rw [compareBest, if_neg h1, if_neg h2]

theorem resetState_ruleFits (k : Nat) (rf : RuleFit) (st : SearchState)
    (hk : k < st.ruleFits.length) :
    (resetState k rf st).ruleFits =
      st.ruleFits.take k ++
        some rf :: List.replicate (st.ruleFits.length - (k + 1)) none :=
  resetAfter_set_eq (some rf) st.ruleFits k hk

/-- Extending a pick block by a deeper block picked under the enlarged
selection keeps it well formed. -/
theorem SelOK_append (peers : List FitPeer) (sel : List Nat)
    (picked I : List (Nat × FitPeer))
    (hp : ∀ x ∈ picked, x.1 < peers.length ∧ peers.getD x.1 default = x.2 ∧
      sel.contains x.1 = false)
    (hn : (picked.map Prod.fst).Nodup)
    (hd : SelOK peers (sel ++ picked.map Prod.fst) I) :
    SelOK peers sel (picked ++ I) := by
  obtain ⟨hd1, hd2⟩ := hd
  constructor
  · intro x hx
    rcases List.mem_append.mp hx with hx | hx
    · exact hp x hx
    · obtain ⟨h1, h2, h3⟩ := hd1 x hx
      rw [contains_append, Bool.or_eq_false_iff] at h3
      exact ⟨h1, h2, h3.1⟩
  · rw [List.map_append]
    refine List.Nodup.append hn hd2 ?_
    intro a ha ha2
    obtain ⟨x, hx, hxa⟩ := List.mem_map.mp ha2
    obtain ⟨-, -, h3⟩ := hd1 x hx
    rw [contains_append, Bool.or_eq_false_iff] at h3
    rw [← hxa] at ha
    exact (contains_eq_false_iff _ _).mp h3.2 ha

/-- The assigned peers of the freshly built rule fit followed by a deeper
block are the peers of the concatenated pick block. -/
theorem peersOf_cons_block (r : Rule) (picked I : List (Nat × FitPeer))
    (rfs : List RuleFit)
    (hB : peersOf rfs = I.map (fun x => x.2.peer)) :
    peersOf (newRuleFit r (picked.map Prod.snd) :: rfs) =
      (picked ++ I).map (fun x => x.2.peer) := by
  rw [peersOf, newRuleFit_peers, hB, List.map_map, List.map_append]
  rfl

theorem sel_append_map_fst (sel : List Nat) (picked I : List (Nat × FitPeer)) :
    (sel ++ picked.map Prod.fst) ++ I.map Prod.fst =
      sel ++ (picked ++ I).map Prod.fst := by
  rw [List.map_append, List.append_assoc]

/-- Record-projection facts used when unfolding the search steps. -/
theorem updateOrphanPeers_ruleFits (peers : List FitPeer) (sel : List Nat)
    (st : SearchState) :
    (updateOrphanPeers peers sel st).ruleFits = st.ruleFits := rfl

theorem updateOrphanPeers_orphans (peers : List FitPeer) (sel : List Nat)
    (st : SearchState) :
    (updateOrphanPeers peers sel st).orphans = orphansFrom sel 0 peers := rfl

theorem updateOrphanPeers_exit (peers : List FitPeer) (sel : List Nat)
    (st : SearchState) :
    (updateOrphanPeers peers sel st).exit = st.exit := rfl

theorem commitState_ruleFits (k : Nat) (rf : RuleFit) (st : SearchState) :
    (commitState k rf st).ruleFits = st.ruleFits.set k (some rf) := rfl

theorem commitState_orphans (k : Nat) (rf : RuleFit) (st : SearchState) :
    (commitState k rf st).orphans = st.orphans := rfl

theorem resetState_exit (k : Nat) (rf : RuleFit) (st : SearchState) :
    (resetState k rf st).exit = st.exit := rfl

/-- Full behavioural specification of one `compareBest` call. -/
theorem compareBest_spec (peers : List FitPeer)
    (deeper : List Nat → SearchState → SearchState × Bool) (lastRule : Bool)
    (k m' : Nat) (sel : List Nat) (picked : List (Nat × FitPeer)) (r : Rule)
    (hdeep : FitSpec peers deeper (k + 1) m')
    (hlast : lastRule = decide (m' = 0))
    (hpicked : ∀ x ∈ picked, x.1 < peers.length ∧ peers.getD x.1 default = x.2 ∧
      sel.contains x.1 = false)
    (hpnodup : (picked.map Prod.fst).Nodup)
    (st : SearchState) (hexit : st.exit = false)
    (hstlen : st.ruleFits.length = k + (m' + 1)) :
    (compareBest peers deeper lastRule k (sel ++ picked.map Prod.fst)
        (newRuleFit r (picked.map Prod.snd)) st).1.ruleFits.length =
      st.ruleFits.length ∧
    ((compareBest peers deeper lastRule k (sel ++ picked.map Prod.fst)
        (newRuleFit r (picked.map Prod.snd)) st).2 = false →
      (compareBest peers deeper lastRule k (sel ++ picked.map Prod.fst)
        (newRuleFit r (picked.map Prod.snd)) st).1.ruleFits = st.ruleFits ∧
      (compareBest peers deeper lastRule k (sel ++ picked.map Prod.fst)
        (newRuleFit r (picked.map Prod.snd)) st).1.orphans = st.orphans) ∧
    ((compareBest peers deeper lastRule k (sel ++ picked.map Prod.fst)
        (newRuleFit r (picked.map Prod.snd)) st).2 = true →
      Inv peers k sel st
        (compareBest peers deeper lastRule k (sel ++ picked.map Prod.fst)
          (newRuleFit r (picked.map Prod.snd)) st).1) ∧
    (st.ruleFits.getD k none = none →
      (compareBest peers deeper lastRule k (sel ++ picked.map Prod.fst)
        (newRuleFit r (picked.map Prod.snd)) st).2 = true) := by
  have hk : k < st.ruleFits.length := by omega
  have htklen : (st.ruleFits.take k).length = k := by
    rw [List.length_take]
    omega
  by_cases h1 : compareBestCmp st k (newRuleFit r (picked.map Prod.snd)) = 1
  · have hst1 := resetState_ruleFits k (newRuleFit r (picked.map Prod.snd)) st hk
    have hlen1 : (resetState k (newRuleFit r (picked.map Prod.snd)) st).ruleFits.length =
        st.ruleFits.length := by
      rw [hst1, List.length_append, List.length_cons, List.length_replicate, htklen]
      omega
    obtain ⟨hdlen, hdfalse, hdtrue, hdexit, hdprog⟩ :=
      hdeep (sel ++ picked.map Prod.fst)
        (resetState k (newRuleFit r (picked.map Prod.snd)) st)
        (by rw [hlen1]; omega)
    by_cases hm0 : m' = 0
    · -- last rule: the deeper run does not change the slots, the orphan list
      -- is recomputed from the enlarged selection
      subst hm0
      have hlastT : lastRule = true := by rw [hlast]; rfl
      have hcb : compareBest peers deeper lastRule k (sel ++ picked.map Prod.fst)
          (newRuleFit r (picked.map Prod.snd)) st =
          (updateOrphanPeers peers (sel ++ picked.map Prod.fst)
            (deeper (sel ++ picked.map Prod.fst)
              (resetState k (newRuleFit r (picked.map Prod.snd)) st)).1, true) := by
        rw [compareBest_one peers deeper lastRule k _ _ st h1, hlastT, if_pos rfl]
      have hrepl0 : st.ruleFits.length - (k + 1) = 0 := by omega
      have hst2rf : (deeper (sel ++ picked.map Prod.fst)
          (resetState k (newRuleFit r (picked.map Prod.snd)) st)).1.ruleFits =
            st.ruleFits.take k ++ [some (newRuleFit r (picked.map Prod.snd))] := by
        rcases hb : (deeper (sel ++ picked.map Prod.fst)
            (resetState k (newRuleFit r (picked.map Prod.snd)) st)).2 with _ | _
        · rw [(hdfalse hb).1, hst1, hrepl0]
          rfl
        · obtain ⟨rfs, I, hA, -, -, -⟩ := hdtrue hb
          have hlen2 := hdlen
          rw [hA, List.length_append, List.length_take, List.length_map,
            hlen1] at hlen2
          have hrfs : rfs = [] := by
            apply List.length_eq_zero.mp
            omega
          rw [hA, hrfs, List.map_nil, List.append_nil,
            List.take_of_length_le (by rw [hlen1]; omega), hst1, hrepl0]
          rfl
      rw [hcb]
      refine ⟨?_, by intro h; exact absurd h (by simp), ?_, fun _ => rfl⟩
      · show (updateOrphanPeers peers (sel ++ picked.map Prod.fst)
            (deeper (sel ++ picked.map Prod.fst)
              (resetState k (newRuleFit r (picked.map Prod.snd)) st)).1).ruleFits.length =
          st.ruleFits.length
        rw [updateOrphanPeers_ruleFits, hst2rf, List.length_append, htklen,
          List.length_cons, List.length_nil]
        omega
      · rintro -
        refine ⟨[newRuleFit r (picked.map Prod.snd)], picked, ?_, ?_,
          ⟨hpicked, hpnodup⟩, ?_⟩
        · show (updateOrphanPeers peers (sel ++ picked.map Prod.fst)
              (deeper (sel ++ picked.map Prod.fst)
                (resetState k (newRuleFit r (picked.map Prod.snd)) st)).1).ruleFits = _
          rw [updateOrphanPeers_ruleFits, hst2rf]
          rfl
        · rw [peersOf, peersOf, List.append_nil, newRuleFit_peers, List.map_map]
          rfl
        · show (updateOrphanPeers peers (sel ++ picked.map Prod.fst)
              (deeper (sel ++ picked.map Prod.fst)
                (resetState k (newRuleFit r (picked.map Prod.snd)) st)).1).orphans = _
          rw [updateOrphanPeers_orphans]
    · -- not the last rule: the deeper search always improves after the reset
      have hlastF : lastRule = false := by
        rw [hlast]
        simp [hm0]
      have hcb : compareBest peers deeper lastRule k (sel ++ picked.map Prod.fst)
          (newRuleFit r (picked.map Prod.snd)) st =
          ((deeper (sel ++ picked.map Prod.fst)
            (resetState k (newRuleFit r (picked.map Prod.snd)) st)).1, true) := by
        rw [compareBest_one peers deeper lastRule k _ _ st h1, hlastF,
          if_neg (by simp)]
      have hgetD : (resetState k (newRuleFit r (picked.map Prod.snd)) st).ruleFits.getD
          (k + 1) none = none := by
        rw [hst1, List.append_cons]
        rw [show k + 1 = (st.ruleFits.take k ++
            [some (newRuleFit r (picked.map Prod.snd))]).length + 0 from by
          rw [List.length_append, htklen]; rfl,
          getD_append_len]
        exact getD_replicate_none _ 0
      have hb : (deeper (sel ++ picked.map Prod.fst)
          (resetState k (newRuleFit r (picked.map Prod.snd)) st)).2 = true :=
        hdprog hm0 (by rw [resetState_exit]; exact hexit) hgetD
      obtain ⟨rfs, I, hA, hB, hC, hD⟩ := hdtrue hb
      have htk1 : (resetState k (newRuleFit r (picked.map Prod.snd)) st).ruleFits.take
          (k + 1) = st.ruleFits.take k ++ [some (newRuleFit r (picked.map Prod.snd))] := by
        rw [hst1, show k + 1 = (st.ruleFits.take k).length + 1 from by rw [htklen],
          take_len_append]
      rw [hcb]
      refine ⟨?_, by intro h; exact absurd h (by simp), ?_, fun _ => rfl⟩
      · show (deeper (sel ++ picked.map Prod.fst)
            (resetState k (newRuleFit r (picked.map Prod.snd)) st)).1.ruleFits.length =
          st.ruleFits.length
        rw [hdlen, hlen1]
      · rintro -
        refine ⟨newRuleFit r (picked.map Prod.snd) :: rfs, picked ++ I, ?_,
          peersOf_cons_block r picked I rfs hB,
          SelOK_append peers sel picked I hpicked hpnodup hC, ?_⟩
        · show (deeper (sel ++ picked.map Prod.fst)
              (resetState k (newRuleFit r (picked.map Prod.snd)) st)).1.ruleFits = _
          rw [hA, htk1, List.map_cons, List.append_assoc, List.singleton_append]
        · show (deeper (sel ++ picked.map Prod.fst)
              (resetState k (newRuleFit r (picked.map Prod.snd)) st)).1.orphans = _
          rw [hD, sel_append_map_fst]
  · by_cases h2 : compareBestCmp st k (newRuleFit r (picked.map Prod.snd)) = 0
    · obtain ⟨hdlen, hdfalse, hdtrue, hdexit, hdprog⟩ :=
        hdeep (sel ++ picked.map Prod.fst) st (by omega)
      have hprog1 : st.ruleFits.getD k none = none → False := fun hget =>
        h1 (by rw [compareBestCmp, hget])
      rcases hb : (deeper (sel ++ picked.map Prod.fst) st).2 with _ | _
      · have hcb : compareBest peers deeper lastRule k (sel ++ picked.map Prod.fst)
            (newRuleFit r (picked.map Prod.snd)) st =
            ((deeper (sel ++ picked.map Prod.fst) st).1, false) := by
          rw [compareBest_zero peers deeper lastRule k _ _ st h1 h2,
            if_neg (by rw [hb]; simp)]
        rw [hcb]
        exact ⟨hdlen, fun _ => hdfalse hb, by intro h; exact absurd h (by simp),
          fun hget => absurd (hprog1 hget) not_false⟩
      · have hcb : compareBest peers deeper lastRule k (sel ++ picked.map Prod.fst)
            (newRuleFit r (picked.map Prod.snd)) st =
            (commitState k (newRuleFit r (picked.map Prod.snd))
              (deeper (sel ++ picked.map Prod.fst) st).1, true) := by
          rw [compareBest_zero peers deeper lastRule k _ _ st h1 h2,
            if_pos (by rw [hb])]
        rw [hcb]
        obtain ⟨rfs, I, hA, hB, hC, hD⟩ := hdtrue hb
        refine ⟨?_, by intro h; exact absurd h (by simp), ?_, fun _ => rfl⟩
        · show (commitState k (newRuleFit r (picked.map Prod.snd))
              (deeper (sel ++ picked.map Prod.fst) st).1).ruleFits.length = _
          rw [commitState_ruleFits, List.length_set, hdlen]
        · rintro -
          refine ⟨newRuleFit r (picked.map Prod.snd) :: rfs, picked ++ I, ?_,
            peersOf_cons_block r picked I rfs hB,
            SelOK_append peers sel picked I hpicked hpnodup hC, ?_⟩
          · show (commitState k (newRuleFit r (picked.map Prod.snd))
                (deeper (sel ++ picked.map Prod.fst) st).1).ruleFits = _
            rw [commitState_ruleFits, hA, take_succ_getD none st.ruleFits k hk,
              List.append_assoc, List.singleton_append]
            generalize hG : st.ruleFits.take k = A
            have hAlen : A.length = k := by rw [← hG]; exact htklen
            rw [show k = A.length from hAlen.symm, set_len_append, List.map_cons]
          · show (commitState k (newRuleFit r (picked.map Prod.snd))
                (deeper (sel ++ picked.map Prod.fst) st).1).orphans = _
            rw [commitState_orphans, hD, sel_append_map_fst]
    · rw [compareBest_neg peers deeper lastRule k _ _ st h1 h2]
      refine ⟨rfl, fun _ => ⟨rfl, rfl⟩, by intro h; exact absurd h (by simp), ?_⟩
      intro hget
      exact absurd (by rw [compareBestCmp, hget] : compareBestCmp st k
        (newRuleFit r (picked.map Prod.snd)) = 1) h1

/-! ### The subset loop preserves the search invariant -/

/-- Invariant of the subset-loop accumulator relative to the state at loop
entry: either nothing improved yet and the slots and orphans are
untouched, or something improved and the invariant holds. -/
abbrev FoldInv (peers : List FitPeer) (k : Nat) (sel : List Nat)
    (st0 : SearchState) (acc : SearchState × Bool) : Prop :=
  acc.1.ruleFits.length = st0.ruleFits.length ∧
  ((acc.2 = false ∧ acc.1.ruleFits = st0.ruleFits ∧ acc.1.orphans = st0.orphans) ∨
    (acc.2 = true ∧ Inv peers k sel st0 acc.1))

theorem Inv_transfer (peers : List FitPeer) (k : Nat) (sel : List Nat)
    (st0 stA stB : SearchState) (h : Inv peers k sel st0 stA)
    (h1 : stB.ruleFits = stA.ruleFits) (h2 : stB.orphans = stA.orphans) :
    Inv peers k sel st0 stB := by
  obtain ⟨rfs, I, a, b, c, d⟩ := h
  exact ⟨rfs, I, by rw [h1, a], b, c, by rw [h2, d]⟩

theorem take_k_of_inv (peers : List FitPeer) (k : Nat) (sel : List Nat)
    (st0 st1 : SearchState) (hlen : k ≤ st0.ruleFits.length)
    (h : Inv peers k sel st0 st1) :
    st1.ruleFits.take k = st0.ruleFits.take k := by
  obtain ⟨rfs, I, a, -, -, -⟩ := h
  rw [a]
  generalize hG : st0.ruleFits.take k = A
  have hl : A.length = k := by
    rw [← hG, List.length_take]
    omega
  rw [← hl, List.take_left]

theorem list_isEmpty_eq_decide (l : List Rule) :
    l.isEmpty = decide (l.length = 0) := by
  cases l <;> rfl

theorem fitStep_preserves (peers : List FitPeer)
    (deeper : List Nat → SearchState → SearchState × Bool)
    (cands : List (Nat × FitPeer)) (r : Rule) (lastRule : Bool) (k : Nat)
    (sel : List Nat) (count m' : Nat)
    (hdeep : FitSpec peers deeper (k + 1) m')
    (hlast : lastRule = decide (m' = 0))
    (hcands : ∀ x ∈ cands, x.1 < peers.length ∧ peers.getD x.1 default = x.2 ∧
      sel.contains x.1 = false)
    (hcnodup : (cands.map Prod.fst).Nodup)
    (st0 : SearchState) (hlen0 : st0.ruleFits.length = k + (m' + 1))
    (st1 : SearchState) (b1 : Bool) (m : Nat)
    (hacc : FoldInv peers k sel st0 (st1, b1)) :
    FoldInv peers k sel st0
      (fitStep peers deeper cands r lastRule k sel count (st1, b1) m) := by
  obtain ⟨hlen1, hcase⟩ := hacc
  have hlen1a : st1.ruleFits.length = st0.ruleFits.length := hlen1
  have hcasea : (b1 = false ∧ st1.ruleFits = st0.ruleFits ∧
      st1.orphans = st0.orphans) ∨ (b1 = true ∧ Inv peers k sel st0 st1) := hcase
  rw [fitStep]
  by_cases hex : st1.exit = true
  · rw [if_pos hex]
    exact ⟨hlen1, hcase⟩
  · rw [if_neg hex]
    by_cases hoc : onesCount m ≠ count
    · rw [if_pos hoc]
      exact ⟨hlen1, hcase⟩
    · rw [if_neg hoc]
      dsimp only
      have hexF : st1.exit = false := Bool.of_not_eq_true hex
      have hlenst1 : st1.ruleFits.length = k + (m' + 1) := by rw [hlen1a, hlen0]
      have hpicked : ∀ x ∈ pickPeersFromBinaryInt cands m,
          x.1 < peers.length ∧ peers.getD x.1 default = x.2 ∧
            sel.contains x.1 = false :=
        fun x hx => hcands x ((pick_sublist cands m).subset hx)
      have hpnodup : ((pickPeersFromBinaryInt cands m).map Prod.fst).Nodup :=
        List.Nodup.sublist ((pick_sublist cands m).map Prod.fst) hcnodup
      obtain ⟨c1, c2, c3, c4⟩ := compareBest_spec peers deeper lastRule k m' sel
        (pickPeersFromBinaryInt cands m) r hdeep hlast hpicked hpnodup st1 hexF
        hlenst1
      refine ⟨by rw [c1, hlen1a], ?_⟩
      rcases hb2 : (compareBest peers deeper lastRule k
          (sel ++ (pickPeersFromBinaryInt cands m).map Prod.fst)
          (newRuleFit r ((pickPeersFromBinaryInt cands m).map Prod.snd)) st1).2
        with _ | _
      · obtain ⟨e1, e2⟩ := c2 hb2
        rcases hcasea with ⟨hbf, hr, ho⟩ | ⟨hbt, hInv⟩
        · subst hbf
          exact Or.inl ⟨rfl, by rw [e1, hr], by rw [e2, ho]⟩
        · subst hbt
          exact Or.inr ⟨rfl, Inv_transfer peers k sel st0 st1 _ hInv e1 e2⟩
      · refine Or.inr ⟨Bool.true_or b1, ?_⟩
        have hInv1 : Inv peers k sel st1
            (compareBest peers deeper lastRule k
              (sel ++ (pickPeersFromBinaryInt cands m).map Prod.fst)
              (newRuleFit r ((pickPeersFromBinaryInt cands m).map Prod.snd)) st1).1 :=
          c3 hb2
        refine Inv_retarget peers k sel st1 st0 _ ?_ hInv1
        rcases hcasea with ⟨-, hr, -⟩ | ⟨-, hInv⟩
        · rw [hr]
        · exact take_k_of_inv peers k sel st0 st1 (by omega) hInv

theorem fitStep_true (peers : List FitPeer)
    (deeper : List Nat → SearchState → SearchState × Bool)
    (cands : List (Nat × FitPeer)) (r : Rule) (lastRule : Bool) (k : Nat)
    (sel : List Nat) (count : Nat) (st1 : SearchState) (m : Nat) :
    (fitStep peers deeper cands r lastRule k sel count (st1, true) m).2 = true := by
  rw [fitStep]
  by_cases hex : st1.exit = true
  · rw [if_pos hex]
  · rw [if_neg hex]
    by_cases hoc : onesCount m ≠ count
    · rw [if_pos hoc]
    · rw [if_neg hoc]
      dsimp only
      rw [Bool.or_true]

theorem fitStep_first (peers : List FitPeer)
    (deeper : List Nat → SearchState → SearchState × Bool)
    (cands : List (Nat × FitPeer)) (r : Rule) (lastRule : Bool) (k : Nat)
    (sel : List Nat) (count m' : Nat)
    (hdeep : FitSpec peers deeper (k + 1) m')
    (hlast : lastRule = decide (m' = 0))
    (hcands : ∀ x ∈ cands, x.1 < peers.length ∧ peers.getD x.1 default = x.2 ∧
      sel.contains x.1 = false)
    (hcnodup : (cands.map Prod.fst).Nodup)
    (st : SearchState) (hexF : st.exit = false)
    (hlen : st.ruleFits.length = k + (m' + 1)) (m : Nat)
    (hoc : onesCount m = count)
    (hget : st.ruleFits.getD k none = none) :
    (fitStep peers deeper cands r lastRule k sel count (st, false) m).2 = true := by
  rw [fitStep, if_neg (by rw [hexF]; simp), if_neg (by rw [hoc]; simp)]
  dsimp only
  have hpicked : ∀ x ∈ pickPeersFromBinaryInt cands m,
      x.1 < peers.length ∧ peers.getD x.1 default = x.2 ∧
        sel.contains x.1 = false :=
    fun x hx => hcands x ((pick_sublist cands m).subset hx)
  have hpnodup : ((pickPeersFromBinaryInt cands m).map Prod.fst).Nodup :=
    List.Nodup.sublist ((pick_sublist cands m).map Prod.fst) hcnodup
  obtain ⟨-, -, -, c4⟩ := compareBest_spec peers deeper lastRule k m' sel
    (pickPeersFromBinaryInt cands m) r hdeep hlast hpicked hpnodup st hexF hlen
  rw [c4 hget]
  rfl

/-! ### The main specification of the fit search -/

theorem fitRule_spec (stores : List Store) (peers : List FitPeer) (needIso : Bool) :
    ∀ (rest : List Rule) (k : Nat),
      FitSpec peers (fitRule stores peers needIso rest k) k rest.length
  | [], k => by
      intro sel st hlen
      rw [fitRule]
      by_cases hex : st.exit = true
      · rw [if_pos hex]
        exact ⟨rfl, fun _ => ⟨rfl, rfl⟩, by rintro h; exact absurd h (by simp),
          fun _ => rfl, fun h0 => absurd rfl h0⟩
      · rw [if_neg hex]
        by_cases hsat : (!needIso && (mkRegionFit st).IsSatisfied) = true
        · rw [if_pos hsat]
          exact ⟨rfl, fun _ => ⟨rfl, rfl⟩, by rintro h; exact absurd h (by simp),
            fun hext => absurd hext hex, fun h0 => absurd rfl h0⟩
        · rw [if_neg hsat]
          exact ⟨rfl, fun _ => ⟨rfl, rfl⟩, by rintro h; exact absurd h (by simp),
            fun hext => absurd hext hex, fun h0 => absurd rfl h0⟩
  | r :: rest', k => by
      intro sel st hlen
      have IH := fitRule_spec stores peers needIso rest' (k + 1)
      by_cases hex : st.exit = true
      · have heq : fitRule stores peers needIso (r :: rest') k sel st = (st, false) := by
          rw [fitRule, if_pos hex]
        rw [heq]
        exact ⟨rfl, fun _ => ⟨rfl, rfl⟩, by rintro h; exact absurd h (by simp),
          fun _ => rfl, fun _ hexF _ => absurd hex (by rw [hexF]; simp)⟩
      · have hexF : st.exit = false := Bool.of_not_eq_true hex
        have hlen0 : st.ruleFits.length = k + (rest'.length + 1) := hlen
        have heq : fitRule stores peers needIso (r :: rest') k sel st =
            (List.range'
              (2 ^ min r.count (ruleCandidates stores peers sel r).length - 1)
              (2 ^ (ruleCandidates stores peers sel r).length -
                2 ^ min r.count (ruleCandidates stores peers sel r).length + 1)).foldl
              (fitStep peers
                (fun sel' st' => fitRule stores peers needIso rest' (k + 1) sel' st')
                (ruleCandidates stores peers sel r) r rest'.isEmpty k sel
                (min r.count (ruleCandidates stores peers sel r).length))
              (st, false) := by
          rw [fitRule, if_neg hex]
        rw [heq]
        have hstep : ∀ (b : SearchState × Bool) (a : Nat),
            FoldInv peers k sel st b →
            FoldInv peers k sel st
              (fitStep peers
                (fun sel' st' => fitRule stores peers needIso rest' (k + 1) sel' st')
                (ruleCandidates stores peers sel r) r rest'.isEmpty k sel
                (min r.count (ruleCandidates stores peers sel r).length) b a) := by
          intro b a hP
          obtain ⟨s1, bb1⟩ := b
          exact fitStep_preserves peers
            (fun sel' st' => fitRule stores peers needIso rest' (k + 1) sel' st')
            (ruleCandidates stores peers sel r) r rest'.isEmpty k sel
            (min r.count (ruleCandidates stores peers sel r).length) rest'.length
            IH (list_isEmpty_eq_decide rest')
            (ruleCandidates_mem stores peers sel r)
            (ruleCandidates_fst_nodup stores peers sel r) st hlen0 s1 bb1 a hP
        have hfold := @foldl_inv Nat (SearchState × Bool) (FoldInv peers k sel st)
          (fitStep peers
            (fun sel' st' => fitRule stores peers needIso rest' (k + 1) sel' st')
            (ruleCandidates stores peers sel r) r rest'.isEmpty k sel
            (min r.count (ruleCandidates stores peers sel r).length)) hstep
          (List.range'
            (2 ^ min r.count (ruleCandidates stores peers sel r).length - 1)
            (2 ^ (ruleCandidates stores peers sel r).length -
              2 ^ min r.count (ruleCandidates stores peers sel r).length + 1))
          (st, false) ⟨rfl, Or.inl ⟨rfl, rfl, rfl⟩⟩
        obtain ⟨f1, f2⟩ := hfold
        refine ⟨f1, ?_, ?_, fun hext => absurd hext hex, ?_⟩
        · intro hb
          rcases f2 with ⟨-, hr, ho⟩ | ⟨hbt, -⟩
          · exact ⟨hr, ho⟩
          · rw [hb] at hbt
            exact absurd hbt (by simp)
        · intro hb
          rcases f2 with ⟨hbf, -, -⟩ | ⟨-, hInv⟩
          · rw [hb] at hbf
            exact absurd hbf (by simp)
          · exact hInv
        · rintro - - hget
          rw [List.range'_succ, List.foldl_cons]
          have hfirst : (fitStep peers
              (fun sel' st' => fitRule stores peers needIso rest' (k + 1) sel' st')
              (ruleCandidates stores peers sel r) r rest'.isEmpty k sel
              (min r.count (ruleCandidates stores peers sel r).length) (st, false)
              (2 ^ min r.count (ruleCandidates stores peers sel r).length - 1)).2 =
              true :=
            fitStep_first peers
              (fun sel' st' => fitRule stores peers needIso rest' (k + 1) sel' st')
              (ruleCandidates stores peers sel r) r rest'.isEmpty k sel
              (min r.count (ruleCandidates stores peers sel r).length) rest'.length
              IH (list_isEmpty_eq_decide rest')
              (ruleCandidates_mem stores peers sel r)
              (ruleCandidates_fst_nodup stores peers sel r) st hexF hlen0 _
              (onesCount_two_pow_sub_one _) hget
          have htrue : ∀ (b : SearchState × Bool) (a : Nat), b.2 = true →
              (fitStep peers
                (fun sel' st' => fitRule stores peers needIso rest' (k + 1) sel' st')
                (ruleCandidates stores peers sel r) r rest'.isEmpty k sel
                (min r.count (ruleCandidates stores peers sel r).length) b a).2 =
                true := by
            intro b a hb
            obtain ⟨s1, bb1⟩ := b
            have hbb : bb1 = true := hb
            subst hbb
            exact fitStep_true peers
              (fun sel' st' => fitRule stores peers needIso rest' (k + 1) sel' st')
              (ruleCandidates stores peers sel r) r rest'.isEmpty k sel
              (min r.count (ruleCandidates stores peers sel r).length) s1 a
          exact @foldl_inv Nat (SearchState × Bool) (fun acc => acc.2 = true)
            (fitStep peers
              (fun sel' st' => fitRule stores peers needIso rest' (k + 1) sel' st')
              (ruleCandidates stores peers sel r) r rest'.isEmpty k sel
              (min r.count (ruleCandidates stores peers sel r).length)) htrue
            (List.range'
              (2 ^ min r.count (ruleCandidates stores peers sel r).length - 1 + 1)
              (2 ^ (ruleCandidates stores peers sel r).length -
                2 ^ min r.count (ruleCandidates stores peers sel r).length)) _ hfirst

/-! ### C1: the partition property, and C8: slots are never absent -/

theorem fitRegion_eq_empty (stores : List Store) (region : Region) :
    fitRegion stores region [] =
      { ruleFits := (fitRule stores (newFitPeer stores region region.peers [])
          (needIsolation []) [] 0 []
          { ruleFits := List.replicate 0 none, orphans := [], exit := false }).1.ruleFits
        orphanPeers := orphansFrom [] 0 (newFitPeer stores region region.peers [])
        regionStores := [] } := rfl

theorem fitRegion_eq_cons (stores : List Store) (region : Region) (rr : Rule)
    (rules' : List Rule) :
    fitRegion stores region (rr :: rules') =
      { ruleFits := (fitRule stores (newFitPeer stores region region.peers [])
          (needIsolation (rr :: rules')) (rr :: rules') 0 []
          { ruleFits := List.replicate (rr :: rules').length none, orphans := [],
            exit := false }).1.ruleFits
        orphanPeers := (fitRule stores (newFitPeer stores region region.peers [])
          (needIsolation (rr :: rules')) (rr :: rules') 0 []
          { ruleFits := List.replicate (rr :: rules').length none, orphans := [],
            exit := false }).1.orphans
        regionStores := [] } := rfl

theorem map_mk_peer (stores : List Store) (region : Region) :
    ∀ l : List Peer,
      ((l.map (fun p => ([] : List FitPeerOpt).foldl (fun q opt => opt q)
        { peer := p, store := getStoreByID stores p.storeId,
          isLeader := region.leaderId = p.id })).map (fun fp => fp.peer)) = l
  | [] => rfl
  | p :: l => by
      rw [List.map_cons, List.map_cons, map_mk_peer stores region l]
      rfl

theorem newFitPeer_map_peer_perm (stores : List Store) (region : Region) :
    ((newFitPeer stores region region.peers []).map (fun fp => fp.peer)).Perm
      region.peers := by
  rw [newFitPeer]
  refine ((sortPeers_perm region _).map _).trans ?_
  rw [map_mk_peer stores region region.peers]

/-- C1.  Partition property: the assigned peers of all rule fits together
with the orphan peers of a `RegionFit` produced by the fit search are a
permutation of the region's peers — every peer appears exactly once, so
no peer is missing, claimed twice, or both assigned and orphaned. -/
theorem fitRegion_partition (stores : List Store) (region : Region)
    (rules : List Rule) :
    (fitPeersOf (fitRegion stores region rules).ruleFits ++
      (fitRegion stores region rules).orphanPeers).Perm region.peers := by
  match rules with
  | [] =>
      rw [fitRegion_eq_empty]
      obtain ⟨c1, -, -, -, -⟩ :=
        fitRule_spec stores (newFitPeer stores region region.peers [])
          (needIsolation []) [] 0 []
          { ruleFits := List.replicate 0 none, orphans := [], exit := false } rfl
      have hnil : (fitRule stores (newFitPeer stores region region.peers [])
          (needIsolation []) [] 0 []
          { ruleFits := List.replicate 0 none, orphans := [],
            exit := false }).1.ruleFits = [] :=
        List.length_eq_zero.mp c1
      rw [hnil]
      show ([] ++ orphansFrom [] 0 (newFitPeer stores region region.peers [])).Perm
        region.peers
      rw [List.nil_append, orphansFrom_nil_sel]
      exact newFitPeer_map_peer_perm stores region
  | rr :: rules' =>
      rw [fitRegion_eq_cons]
      obtain ⟨c1, c2, c3, c4, c5⟩ :=
        fitRule_spec stores (newFitPeer stores region region.peers [])
          (needIsolation (rr :: rules')) (rr :: rules') 0 []
          { ruleFits := List.replicate (rr :: rules').length none, orphans := [],
            exit := false } (by rw [List.length_replicate]; omega)
      have hb : (fitRule stores (newFitPeer stores region region.peers [])
          (needIsolation (rr :: rules')) (rr :: rules') 0 []
          { ruleFits := List.replicate (rr :: rules').length none, orphans := [],
            exit := false }).2 = true :=
        c5 (by simp) rfl (getD_replicate_none _ 0)
      obtain ⟨rfs, I, hA, hB, ⟨hC1, hC2⟩, hD⟩ := c3 hb
      rw [List.take_zero, List.nil_append] at hA
      show (fitPeersOf (fitRule stores (newFitPeer stores region region.peers [])
          (needIsolation (rr :: rules')) (rr :: rules') 0 []
          { ruleFits := List.replicate (rr :: rules').length none, orphans := [],
            exit := false }).1.ruleFits ++ _).Perm region.peers
      rw [hA, hD, fitPeersOf_map_some, hB]
      refine List.Perm.trans ?_ (newFitPeer_map_peer_perm stores region)
      have hpart := picks_orphans_partition
        (newFitPeer stores region region.peers []) I [] hC1 hC2
      rw [orphansFrom_nil_sel] at hpart
      rw [List.nil_append] at hpart
      exact hpart

theorem fitRegion_ruleFits_isSome (stores : List Store) (region : Region)
    (rules : List Rule) :
    ((fitRegion stores region rules).ruleFits.all (fun orf => orf.isSome)) = true := by
  match rules with
  | [] =>
      rw [fitRegion_eq_empty]
      obtain ⟨c1, -, -, -, -⟩ :=
        fitRule_spec stores (newFitPeer stores region region.peers [])
          (needIsolation []) [] 0 []
          { ruleFits := List.replicate 0 none, orphans := [], exit := false } rfl
      rw [List.length_eq_zero.mp c1]
      rfl
  | rr :: rules' =>
      rw [fitRegion_eq_cons]
      obtain ⟨c1, c2, c3, c4, c5⟩ :=
        fitRule_spec stores (newFitPeer stores region region.peers [])
          (needIsolation (rr :: rules')) (rr :: rules') 0 []
          { ruleFits := List.replicate (rr :: rules').length none, orphans := [],
            exit := false } (by rw [List.length_replicate]; omega)
      have hb : (fitRule stores (newFitPeer stores region region.peers [])
          (needIsolation (rr :: rules')) (rr :: rules') 0 []
          { ruleFits := List.replicate (rr :: rules').length none, orphans := [],
            exit := false }).2 = true :=
        c5 (by simp) rfl (getD_replicate_none _ 0)
      obtain ⟨rfs, I, hA, -, -, -⟩ := c3 hb
      rw [List.take_zero, List.nil_append] at hA
      show ((fitRule stores (newFitPeer stores region region.peers [])
          (needIsolation (rr :: rules')) (rr :: rules') 0 []
          { ruleFits := List.replicate (rr :: rules').length none, orphans := [],
            exit := false }).1.ruleFits.all (fun orf => orf.isSome)) = true
      rw [hA, List.all_eq_true]
      intro orf hmem
      obtain ⟨rf, -, rfl⟩ := List.mem_map.mp hmem
      rfl

/-- C8 counterexample.  The fit search never leaves a rule's entry absent:
no input produces a `RegionFit` with a nil entry in `RuleFits`, refuting
the claim that a rule with zero eligible stores can have an absent entry. -/
theorem fitRegion_no_absent_entry :
    ¬ ∃ (stores : List Store) (region : Region) (rules : List Rule)
        (orf : Option RuleFit),
        orf ∈ (fitRegion stores region rules).ruleFits ∧ orf = none := by
  rintro ⟨stores, region, rules, orf, hmem, rfl⟩
  have hall := fitRegion_ruleFits_isSome stores region rules
  rw [List.all_eq_true] at hall
  exact absurd (hall none hmem) (by simp)

/-- C8 amended.  A rule whose label constraint set has zero eligible stores
cluster-wide gets zero candidates, and in the produced `RegionFit` its
entry is a present rule fit with zero assigned peers — not an absent
(nil) entry. -/
theorem zero_eligible_rule_fit :
    (∀ (stores : List Store) (peers : List FitPeer) (sel : List Nat) (r : Rule),
      checkRule r stores = false → ruleCandidates stores peers sel r = []) ∧
    checkRule sampleRuleNoStore sampleStores3 = false ∧
    ((fitRegion sampleStores3 sampleRegion3 [sampleRuleNoStore]).ruleFits.map
      (Option.map (fun rf => rf.peers))) = [some []] := by
  refine ⟨?_, by decide, by decide⟩
  intro stores peers sel r h
  rw [ruleCandidates, if_neg (by rw [h]; simp)]

theorem zero_eligible_rule_fit_witness :
    ruleCandidates sampleStores3 samplePeers3 [] sampleRuleNoStore = [] :=
  zero_eligible_rule_fit.1 sampleStores3 samplePeers3 [] sampleRuleNoStore (by decide)

end Placement